import Mathlib

/-!
Verification of the native-vcp retrieval core (TagMemo streaming co-occurrence
matrix, NPMI batch co-occurrence matrix, hybrid RRF fusion, WaveRAG pipeline).

Shallow embedding conventions:
* Rust `f64` arithmetic is modelled by exact real arithmetic over `ℝ`
  (`f64::ln`, `powf`, `sqrt`, `exp` become `Real.log`, `Real.rpow`,
  `Real.sqrt`, `Real.exp`; note `Real.log 0 = 0` while Rust returns `-inf`,
  and both fail the `> 0` tests the code guards with).
* Rust `HashMap` is modelled by an association list: `entry(k).or_insert(d)`
  followed by a mutation is `alModify`, plain `insert` is `alPut`.  Lookup is
  `alGet` (first matching key).  All maps the code builds have distinct keys.
* `u32`/`usize` become `ℕ`; the `as u32` saturating cast of a nonnegative
  float is `Nat.floor`.
* Timing fields (`duration_ms`), trace ids and the napi error plumbing are
  dropped: they carry no algorithmic content.
-/

/-- Association-list lookup, modelling `HashMap::get` (first matching key). -/
def alGet {V : Type} : List (String × V) → String → Option V
  | [], _ => none
  | (k1, v) :: rest, k => if k1 = k then some v else alGet rest k

/-- Modify the value at `k` (first occurrence), inserting `f dflt` when the key
is absent.  Models `map.entry(k).or_insert(dflt)` followed by applying `f`. -/
def alModify {V : Type} : List (String × V) → String → V → (V → V) → List (String × V)
  | [], k, dflt, f => [(k, f dflt)]
  | (k1, v) :: rest, k, dflt, f =>
    if k1 = k then (k1, f v) :: rest else (k1, v) :: alModify rest k dflt f

/-- Insert-or-overwrite, modelling `HashMap::insert`. -/
def alPut {V : Type} (l : List (String × V)) (k : String) (v : V) : List (String × V) :=
  alModify l k v (fun _ => v)

/-- Modify the value at `k` only when the key is present, modelling
`if let Some(e) = map.get_mut(k) ...`. -/
def alAdjust {V : Type} : List (String × V) → String → (V → V) → List (String × V)
  | [], _, _ => []
  | (k1, v) :: rest, k, f =>
    if k1 = k then (k1, f v) :: rest else (k1, v) :: alAdjust rest k f

/-- Per-character lowercase map, modelling Rust `str::to_lowercase` as used on
the ASCII tag strings of this code base. -/
def lowerStr (s : String) : String := ⟨s.data.map Char.toLower⟩

/-- State of `TagCooccurrenceMatrix` (the `TagMatrixInner` fields of
`src/native-vcp/src/tagmemo.rs`). -/
structure TagCooccurrenceMatrix where
  alpha : ℝ
  beta : ℝ
  cooccurrence : List (String × List (String × ℝ))
  frequencies : List (String × ℝ)
  total_count : ℝ
  min_pmi_threshold : ℝ

/-- Constructor `TagCooccurrenceMatrix::new` (defaults `alpha = 0.8`,
`beta = 0.2`). -/
noncomputable def TagCooccurrenceMatrix.new (alpha beta : Option ℝ) : TagCooccurrenceMatrix :=
  { alpha := alpha.getD 0.8
    beta := beta.getD 0.2
    cooccurrence := []
    frequencies := []
    total_count := 0
    min_pmi_threshold := 0 }

/-- Nested lookup `cooccurrence[a][b]`, `none` when either level is absent. -/
def cooc2Get (c : List (String × List (String × ℝ))) (a b : String) : Option ℝ :=
  (alGet c a).bind fun inner => alGet inner b

/-- One half of the streaming update:
`cooccurrence.entry(t1).or_default().entry(t2).or_insert(0); *c = *c * beta + w * alpha`. -/
noncomputable def coocBump (c : List (String × List (String × ℝ)))
    (t1 t2 : String) (alpha beta w : ℝ) : List (String × List (String × ℝ)) :=
  alModify c t1 [] (fun inner => alModify inner t2 0 (fun v => v * beta + w * alpha))

/-- Method `TagCooccurrenceMatrix::update` (tagmemo.rs lines 56-85): bump both
orderings of the pair, add `w` to each frequency, add `2w` to the total. -/
noncomputable def TagCooccurrenceMatrix.update (M : TagCooccurrenceMatrix)
    (tag1 tag2 : String) (weight : Option ℝ) : TagCooccurrenceMatrix :=
  let w := weight.getD 1
  let c1 := coocBump M.cooccurrence tag1 tag2 M.alpha M.beta w
  let c2 := coocBump c1 tag2 tag1 M.alpha M.beta w
  { M with
    cooccurrence := c2
    frequencies := alModify (alModify M.frequencies tag1 0 (fun v => v + w)) tag2 0 (fun v => v + w)
    total_count := M.total_count + w * 2 }

/-- Payload of `batch_update`. -/
structure TagPairUpdate where
  tag1 : String
  tag2 : String
  weight : Option ℝ

/-- Method `TagCooccurrenceMatrix::batch_update` (tagmemo.rs lines 88-120):
the per-item body is literally the body of `update` (with `alpha`/`beta` read
once up front, which `update` leaves unchanged), applied sequentially. -/
noncomputable def TagCooccurrenceMatrix.batch_update (M : TagCooccurrenceMatrix)
    (updates : List TagPairUpdate) : TagCooccurrenceMatrix :=
  updates.foldl (fun m u => m.update u.tag1 u.tag2 u.weight) M

/-- A call against the mutating API of the matrix. -/
inductive TagOp where
  | single : String → String → Option ℝ → TagOp
  | batch : List TagPairUpdate → TagOp

/-- Apply one API call. -/
noncomputable def applyTagOp (M : TagCooccurrenceMatrix) : TagOp → TagCooccurrenceMatrix
  | TagOp.single t1 t2 w => M.update t1 t2 w
  | TagOp.batch us => M.batch_update us

/-- Apply a sequence of `update`/`batch_update` calls. -/
noncomputable def applyTagOps (M : TagCooccurrenceMatrix) (ops : List TagOp) : TagCooccurrenceMatrix :=
  ops.foldl applyTagOp M

/-- Symmetry of the nested co-occurrence table. -/
def CoocSymm (c : List (String × List (String × ℝ))) : Prop :=
  ∀ a b, cooc2Get c a b = cooc2Get c b a

/-- Method `TagCooccurrenceMatrix::compute_pmi` (tagmemo.rs lines 123-154):
guards against a zero total, zero frequencies and a zero co-occurrence before
taking the logarithm. -/
noncomputable def TagCooccurrenceMatrix.compute_pmi (M : TagCooccurrenceMatrix)
    (tag1 tag2 : String) : ℝ :=
  if M.total_count = 0 then 0
  else
    let freq1 := (alGet M.frequencies tag1).getD 0
    let freq2 := (alGet M.frequencies tag2).getD 0
    if freq1 = 0 ∨ freq2 = 0 then 0
    else
      let cooc := (cooc2Get M.cooccurrence tag1 tag2).getD 0
      if cooc = 0 then 0
      else
        let p_ab := cooc / M.total_count
        let p_a := freq1 / M.total_count
        let p_b := freq2 / M.total_count
        Real.log (p_ab / (p_a * p_b))

/-- Apply a list of `update(tag1, tag2, Some(weight))` calls in order. -/
noncomputable def applyWeightedUpdates (M : TagCooccurrenceMatrix)
    (updates : List (String × String × ℝ)) : TagCooccurrenceMatrix :=
  updates.foldl (fun m u => m.update u.1 u.2.1 (some u.2.2)) M

/-- Matrix states whose stored numbers are strictly positive, with a
nonnegative total and positive `alpha` / nonnegative `beta`; this is the shape
every state reachable by positive-weight updates from a fresh matrix has. -/
def PosMatrix (M : TagCooccurrenceMatrix) : Prop :=
  0 < M.alpha ∧ 0 ≤ M.beta ∧ 0 ≤ M.total_count ∧
  (∀ t v, alGet M.frequencies t = some v → 0 < v) ∧
  (∀ a b v, cooc2Get M.cooccurrence a b = some v → 0 < v)

/-- Parameters of `compute_tag_boost` (tagmemo.rs 510-525). -/
structure TagBoostParams where
  query_tags : List String
  content_tags : List String
  original_score : Option ℝ
  alpha_min : Option ℝ
  alpha_max : Option ℝ
  beta_base : Option ℝ

/-- Per-match spike detail (tagmemo.rs 551-562). -/
structure SpikeDetail where
  tag : String
  weight : ℝ
  global_freq : ℝ
  score : ℝ

/-- Result of `compute_tag_boost` (tagmemo.rs 527-548). -/
structure TagBoostResult where
  original_score : ℝ
  boosted_score : ℝ
  matched_tags : List String
  expansion_tags : List String
  boost_factor : ℝ
  tag_match_score : ℝ
  spike_details : List SpikeDetail
  dynamic_alpha : ℝ
  dynamic_beta : ℝ

/-- Per-query-tag probabilities `freq[t]/total` (0 on zero total),
tagmemo.rs 318-330. -/
noncomputable def tagScores (M : TagCooccurrenceMatrix) (query_tags : List String) : List ℝ :=
  query_tags.map fun t =>
    let freq := (alGet M.frequencies t).getD 0
    if 0 < M.total_count then freq / M.total_count else 0

/-- Mean of the tag scores, 0 for an empty list (tagmemo.rs 332-336). -/
noncomputable def avgOf (scores : List ℝ) : ℝ :=
  if scores = [] then 0 else scores.sum / scores.length

/-- Rust `f64::clamp(lo, hi)` on its non-panicking domain `lo ≤ hi`. -/
noncomputable def clampR (x lo hi : ℝ) : ℝ :=
  if x < lo then lo else if hi < x then hi else x

/-- Neighbour count `cooccurrence.get(t).map(|m| m.len() as f64).unwrap_or(1.0)`
(tagmemo.rs 362-366). -/
noncomputable def globalFreqOf (M : TagCooccurrenceMatrix) (t : String) : ℝ :=
  match alGet M.cooccurrence t with
  | some m => (m.length : ℝ)
  | none => 1

/-- Accumulator of the direct-match spike loop. -/
structure SpikeAcc where
  total_spike_score : ℝ
  matched_tags : List String
  spike_details : List SpikeDetail

/-- One iteration of the direct-match loop of `compute_tag_boost`
(tagmemo.rs 351-385): an unknown tag falls back to frequency 1 (`unwrap_or(1.0)`). -/
noncomputable def directSpikeStep (M : TagCooccurrenceMatrix) (content_tags : List String)
    (dynamic_alpha dynamic_beta : ℝ) (acc : SpikeAcc) (tag : String) : SpikeAcc :=
  let content_tags_lower := content_tags.map lowerStr
  if lowerStr tag ∈ content_tags_lower then
    let freq := (alGet M.frequencies tag).getD 1
    let global_freq := globalFreqOf M tag
    let logic_strength := Real.rpow freq dynamic_alpha
    let noise_penalty := Real.log (global_freq + dynamic_beta)
    let score := if 0 < noise_penalty then logic_strength / noise_penalty else logic_strength
    { total_spike_score := acc.total_spike_score + score
      matched_tags := acc.matched_tags ++ [tag]
      spike_details := acc.spike_details ++ [⟨tag, freq, global_freq, score⟩] }
  else acc

/-- Direct-match loop over the query tags. -/
noncomputable def directSpike (M : TagCooccurrenceMatrix) (content_tags : List String)
    (dynamic_alpha dynamic_beta : ℝ) (query_tags : List String) : SpikeAcc :=
  query_tags.foldl (directSpikeStep M content_tags dynamic_alpha dynamic_beta) ⟨0, [], []⟩

/-- Accumulator of the expansion-match spike loop. -/
structure ExpandSpikeAcc where
  total_spike_score : ℝ
  expansion_tags : List String
  spike_details : List SpikeDetail

/-- One neighbour iteration of the expansion loop (tagmemo.rs 391-428):
expansion matches are down-weighted by `0.5` twice. -/
noncomputable def expansionPairStep (M : TagCooccurrenceMatrix)
    (content_tags matched_tags : List String) (dynamic_alpha dynamic_beta : ℝ)
    (acc : ExpandSpikeAcc) (pair : String × ℝ) : ExpandSpikeAcc :=
  let content_tags_lower := content_tags.map lowerStr
  if lowerStr pair.1 ∈ content_tags_lower ∧ pair.1 ∉ matched_tags
      ∧ pair.1 ∉ acc.expansion_tags then
    let global_freq := globalFreqOf M pair.1
    let weight := pair.2 * 0.5
    let logic_strength := Real.rpow weight dynamic_alpha
    let noise_penalty := Real.log (global_freq + dynamic_beta)
    let score := if 0 < noise_penalty then logic_strength / noise_penalty * 0.5
      else logic_strength * 0.5
    { total_spike_score := acc.total_spike_score + score
      expansion_tags := acc.expansion_tags ++ [pair.1]
      spike_details := acc.spike_details ++ [⟨pair.1, weight, global_freq, score⟩] }
  else acc

/-- One query-tag iteration of the expansion loop (tagmemo.rs 389-430). -/
noncomputable def expansionSpikeStep (M : TagCooccurrenceMatrix)
    (content_tags matched_tags : List String) (dynamic_alpha dynamic_beta : ℝ)
    (acc : ExpandSpikeAcc) (tag : String) : ExpandSpikeAcc :=
  match alGet M.cooccurrence tag with
  | none => acc
  | some coocs =>
    coocs.foldl (expansionPairStep M content_tags matched_tags dynamic_alpha dynamic_beta) acc

/-- Expansion-match loop over the query tags, continuing the accumulated
spike total and details of the direct loop. -/
noncomputable def expansionSpike (M : TagCooccurrenceMatrix)
    (content_tags matched_tags : List String) (dynamic_alpha dynamic_beta : ℝ)
    (query_tags : List String) (acc0 : ExpandSpikeAcc) : ExpandSpikeAcc :=
  query_tags.foldl (expansionSpikeStep M content_tags matched_tags dynamic_alpha dynamic_beta) acc0

/-- Method `TagCooccurrenceMatrix::compute_tag_boost` (tagmemo.rs 314-451). -/
noncomputable def TagCooccurrenceMatrix.compute_tag_boost (M : TagCooccurrenceMatrix)
    (params : TagBoostParams) : TagBoostResult :=
  let avg_score := avgOf (tagScores M params.query_tags)
  let alpha_min := params.alpha_min.getD 1.5
  let alpha_max := params.alpha_max.getD 3.5
  let beta_base := params.beta_base.getD 2
  let dynamic_alpha := clampR (alpha_min + (alpha_max - alpha_min) * avg_score) alpha_min alpha_max
  let dynamic_beta := beta_base + (1 - avg_score) * 3
  let direct := directSpike M params.content_tags dynamic_alpha dynamic_beta params.query_tags
  let expanded := expansionSpike M params.content_tags direct.matched_tags dynamic_alpha
    dynamic_beta params.query_tags ⟨direct.total_spike_score, [], direct.spike_details⟩
  let total_spike_score := expanded.total_spike_score
  let normalized_spike := total_spike_score / (total_spike_score + dynamic_beta * 2)
  let boost_factor := 1 + normalized_spike * 0.5
  let original_score := params.original_score.getD 0
  let boosted_score := min (original_score * boost_factor) 1
  { original_score := original_score
    boosted_score := boosted_score
    matched_tags := direct.matched_tags
    expansion_tags := expanded.expansion_tags
    boost_factor := boost_factor
    tag_match_score := total_spike_score
    spike_details := expanded.spike_details
    dynamic_alpha := dynamic_alpha
    dynamic_beta := dynamic_beta }

/-- Matrix states with nonnegative stored numbers where every single-tag
frequency is bounded by the total count; every state reachable by
nonnegative-weight updates from a fresh matrix has this shape. -/
def Wellformed (M : TagCooccurrenceMatrix) : Prop :=
  (∀ p ∈ M.frequencies, 0 ≤ p.2) ∧
  (∀ q ∈ M.cooccurrence, ∀ p ∈ q.2, 0 ≤ p.2) ∧
  0 ≤ M.total_count ∧
  ∀ t, (alGet M.frequencies t).getD 0 ≤ M.total_count

/-- Parameters of `boost_vector` (tagmemo.rs 576-601): `tag_vectors` is the
flattened per-tag context-vector table. -/
structure VectorBoostParams where
  original_vector : List ℝ
  query_tags : List String
  content_tags : List String
  tag_vectors : Option (List ℝ)
  tag_names : Option (List String)
  vector_dim : ℕ
  alpha_min : Option ℝ
  alpha_max : Option ℝ
  beta_base : Option ℝ
  max_boost_ratio : Option ℝ

/-- Result of `boost_vector` (tagmemo.rs 603-624). -/
structure VectorBoostResult where
  fused_vector : List ℝ
  original_score : ℝ
  boosted_score : ℝ
  matched_tags : List String
  expansion_tags : List String
  boost_factor : ℝ
  context_blend_ratio : ℝ
  dynamic_alpha : ℝ
  dynamic_beta : ℝ

/-- L2 norm `sqrt(sum x*x)` (tagmemo.rs 816). -/
noncomputable def l2norm (v : List ℝ) : ℝ :=
  Real.sqrt ((v.map fun x => x * x).sum)

/-- L2 normalization guarded by `norm > 0` (tagmemo.rs 816-821). -/
noncomputable def l2normalize (v : List ℝ) : List ℝ :=
  if 0 < l2norm v then v.map fun x => x / l2norm v else v

/-- Accumulator of the direct-match loop of `boost_vector`. -/
structure VecMatchAcc where
  matched_tags : List String
  matched_weights : List ℝ
  total_spike_score : ℝ

/-- Direct-match iteration of `boost_vector` (tagmemo.rs 696-718); the
content tags are lowercased once before the loop. -/
noncomputable def vecDirectStep (M : TagCooccurrenceMatrix) (content_tags_lower : List String)
    (da db : ℝ) (acc : VecMatchAcc) (tag : String) : VecMatchAcc :=
  if lowerStr tag ∈ content_tags_lower then
    let freq := (alGet M.frequencies tag).getD 1
    let global_freq := globalFreqOf M tag
    let logic_strength := Real.rpow freq da
    let noise_penalty := Real.log (global_freq + db)
    let weight := if 0 < noise_penalty then logic_strength / noise_penalty else logic_strength
    { matched_tags := acc.matched_tags ++ [tag]
      matched_weights := acc.matched_weights ++ [weight]
      total_spike_score := acc.total_spike_score + weight }
  else acc

/-- Accumulator of the expansion loop of `boost_vector`; expansion weights are
appended to the shared `matched_weights` list. -/
structure VecExpandAcc where
  expansion_tags : List String
  matched_weights : List ℝ
  total_spike_score : ℝ

/-- Expansion neighbour iteration of `boost_vector` (tagmemo.rs 723-749). -/
noncomputable def vecExpandPairStep (M : TagCooccurrenceMatrix)
    (content_tags_lower matched_tags : List String) (da db : ℝ)
    (acc : VecExpandAcc) (pair : String × ℝ) : VecExpandAcc :=
  if lowerStr pair.1 ∈ content_tags_lower ∧ pair.1 ∉ matched_tags
      ∧ pair.1 ∉ acc.expansion_tags then
    let global_freq := globalFreqOf M pair.1
    let weight := pair.2 * 0.5
    let logic_strength := Real.rpow weight da
    let noise_penalty := Real.log (global_freq + db)
    let expanded_weight := if 0 < noise_penalty then logic_strength / noise_penalty * 0.5
      else logic_strength * 0.5
    { expansion_tags := acc.expansion_tags ++ [pair.1]
      matched_weights := acc.matched_weights ++ [expanded_weight]
      total_spike_score := acc.total_spike_score + expanded_weight }
  else acc

/-- One query-tag iteration of the expansion loop of `boost_vector`
(tagmemo.rs 722-751). -/
noncomputable def vecExpandStep (M : TagCooccurrenceMatrix)
    (content_tags_lower matched_tags : List String) (da db : ℝ)
    (acc : VecExpandAcc) (tag : String) : VecExpandAcc :=
  match alGet M.cooccurrence tag with
  | none => acc
  | some coocs => coocs.foldl (vecExpandPairStep M content_tags_lower matched_tags da db) acc

/-- Accumulator of the context-centroid loop. -/
structure CtxAcc where
  context_vector : List ℝ
  weight_sum : ℝ
  has_context : Bool

/-- One tag-name iteration of the context-centroid loop (tagmemo.rs 762-782):
accumulate `val * weight` into the context vector over the tag's slice of the
flattened table. -/
noncomputable def ctxStep (tag_vectors : List ℝ) (dim : ℕ) (all_matched : List String)
    (matched_weights : List ℝ) (acc : CtxAcc) (p : ℕ × String) : CtxAcc :=
  if all_matched.any fun t => lowerStr t = lowerStr p.2 then
    let vec_start := p.1 * dim
    let vec_end := vec_start + dim
    if vec_end ≤ tag_vectors.length then
      let weight_idx := (all_matched.findIdx? fun t => lowerStr t = lowerStr p.2).getD 0
      let weight := (matched_weights.get? weight_idx).getD 1
      let slice := (tag_vectors.drop vec_start).take dim
      { context_vector := List.zipWith (fun c v => c + v * weight) acc.context_vector slice
        weight_sum := acc.weight_sum + weight
        has_context := true }
    else acc
  else acc

/-- Steps 1-5 of `boost_vector` (tagmemo.rs 656-813), with the fused vector
still un-normalized (step 6 is applied by `boost_vector` itself). -/
noncomputable def boostVectorCore (M : TagCooccurrenceMatrix)
    (params : VectorBoostParams) : VectorBoostResult :=
  let dim := params.vector_dim
  let avg_score := avgOf (tagScores M params.query_tags)
  let alpha_min := params.alpha_min.getD 1.5
  let alpha_max := params.alpha_max.getD 3.5
  let beta_base := params.beta_base.getD 2
  let max_ratio := params.max_boost_ratio.getD 0.3
  let dynamic_alpha := clampR (alpha_min + (alpha_max - alpha_min) * avg_score) alpha_min alpha_max
  let dynamic_beta := beta_base + (1 - avg_score) * 3
  let content_tags_lower := params.content_tags.map lowerStr
  let direct := params.query_tags.foldl
    (vecDirectStep M content_tags_lower dynamic_alpha dynamic_beta) ⟨[], [], 0⟩
  let expanded := params.query_tags.foldl
    (vecExpandStep M content_tags_lower direct.matched_tags dynamic_alpha dynamic_beta)
    ⟨[], direct.matched_weights, direct.total_spike_score⟩
  let ctx :=
    match params.tag_vectors, params.tag_names with
    | some tag_vectors, some tag_names =>
      let all_matched := direct.matched_tags ++ expanded.expansion_tags
      tag_names.enum.foldl (ctxStep tag_vectors dim all_matched expanded.matched_weights)
        ⟨List.replicate dim 0, 0, false⟩
    | _, _ => ⟨List.replicate dim 0, 0, false⟩
  let context_vector := if 0 < ctx.weight_sum
    then ctx.context_vector.map (fun v => v / ctx.weight_sum) else ctx.context_vector
  let total_spike_score := expanded.total_spike_score
  let normalized_spike := total_spike_score / (total_spike_score + dynamic_beta * 2)
  let boost_factor := 1 + normalized_spike * 0.5
  let blend := if ctx.has_context then min (normalized_spike * max_ratio) max_ratio else 0
  let fused_vector := if ctx.has_context ∧ 0 < blend then
      List.zipWith (fun orig c => (1 - blend) * orig + blend * c)
        params.original_vector context_vector
    else params.original_vector
  let original_score := (0:ℝ)
  let boosted_score := min (original_score * boost_factor) 1
  { fused_vector := fused_vector
    original_score := original_score
    boosted_score := boosted_score
    matched_tags := direct.matched_tags
    expansion_tags := expanded.expansion_tags
    boost_factor := boost_factor
    context_blend_ratio := blend
    dynamic_alpha := dynamic_alpha
    dynamic_beta := dynamic_beta }

/-- Method `TagCooccurrenceMatrix::boost_vector` (tagmemo.rs 637-838): early
return of the raw input vector on dimension mismatch, else steps 1-5 followed
by guarded L2 normalization. -/
noncomputable def TagCooccurrenceMatrix.boost_vector (M : TagCooccurrenceMatrix)
    (params : VectorBoostParams) : VectorBoostResult :=
  if params.original_vector.length ≠ params.vector_dim then
    { fused_vector := params.original_vector
      original_score := 0
      boosted_score := 0
      matched_tags := []
      expansion_tags := []
      boost_factor := 1
      context_blend_ratio := 0
      dynamic_alpha := 1.5
      dynamic_beta := 2 }
  else
    let core := boostVectorCore M params
    { core with fused_vector := l2normalize core.fused_vector }

/-- Concrete `boost_vector` parameters: nonzero vector, mismatched dimension. -/
noncomputable def vbMismatchParams : VectorBoostParams :=
  ⟨[2], [], [], none, none, 0, none, none, none, none⟩

/-- Concrete `boost_vector` parameters: the vector `[3,4]` with matching
dimension 2 and no context. -/
noncomputable def vbWitnessParams : VectorBoostParams :=
  ⟨[3, 4], [], [], none, none, 2, none, none, none, none⟩

/-- Byte-order (equivalently codepoint-order) comparison of character lists,
matching Rust `&str` ordering, as used by `tags.sort()`. -/
def charsLt : List Char → List Char → Bool
  | [], [] => false
  | [], _ :: _ => true
  | _ :: _, [] => false
  | a :: as, b :: bs =>
    if a.val < b.val then true else if b.val < a.val then false else charsLt as bs

/-- Non-strict string order for the lexicographic tag sort. -/
def strLe (s t : String) : Bool := s == t || charsLt s.data t.data

/-- Document input of `build_from_documents` (cooccurrence.rs 44-51). -/
structure DocumentInput where
  id : String
  tags : List String

/-- State of `CooccurrenceMatrix` (cooccurrence.rs 59-71).  The `weights` and
`tag_freq` hash maps are modelled by their lookup functions; `tag_index` is
kept implicitly as position in `tags` (both `build_from_documents` and
`from_json` construct it exactly that way). -/
structure CooccurrenceMatrix where
  tags : List String
  weights : ℕ × ℕ → Option ℝ
  tag_freq : String → Option ℕ
  total_docs : ℕ

/-- Constructor `CooccurrenceMatrix::new` (cooccurrence.rs 76-85). -/
def CooccurrenceMatrix.new : CooccurrenceMatrix :=
  { tags := [], weights := fun _ => none, tag_freq := fun _ => none, total_docs := 0 }

/-- Lookup in `tag_index`: position of a tag in the sorted tag list (first
occurrence). -/
def tagIndexGet : List String → String → Option ℕ
  | [], _ => none
  | s :: rest, t => if s = t then some 0 else (tagIndexGet rest t).map (· + 1)

/-- The distinct tags over all documents (keys of `tag_doc_set`). -/
def docTags (docs : List DocumentInput) : List String :=
  (docs.flatMap fun d => d.tags).dedup

/-- The sorted distinct tag list built in step 2 of `build_from_documents`
(cooccurrence.rs 114-123). -/
def sortedTags (docs : List DocumentInput) : List String :=
  List.insertionSort (fun a b => strLe a b = true) (docTags docs)

/-- Per-tag document frequency: the number of distinct ids of documents
containing the tag (`tag_doc_set[t].len()`, cooccurrence.rs 103-128). -/
def docFreq (docs : List DocumentInput) (t : String) : ℕ :=
  ((docs.filter fun d => t ∈ d.tags).map fun d => d.id).dedup.length

/-- All position pairs `i < j` of an index list, each normalized to
`(min, max)` — exactly the double loop of step 4 (cooccurrence.rs 140-149).
Duplicate tags are NOT deduplicated here, and equal indices produce a
self-pair. -/
def ordPairs : List ℕ → List (ℕ × ℕ)
  | [] => []
  | x :: rest => (rest.map fun y => (min x y, max x y)) ++ ordPairs rest

/-- The co-occurrence count `cooccur_count[(a, b)]` for a normalized pair
(cooccurrence.rs 131-150). -/
def countPair (docs : List DocumentInput) (tags : List String) (p : ℕ × ℕ) : ℕ :=
  (docs.flatMap fun d => ordPairs (d.tags.filterMap fun t => tagIndexGet tags t)).count p

/-- The NPMI weight table produced by step 5 of `build_from_documents`
(cooccurrence.rs 152-184), as a symmetric lookup: an entry is present at
`(i, j)` and `(j, i)` whenever the pair was counted and both frequencies are
nonzero. -/
noncomputable def builtWeights (docs : List DocumentInput) : ℕ × ℕ → Option ℝ := fun p =>
  let tags := sortedTags docs
  let lo := min p.1 p.2
  let hi := max p.1 p.2
  let count := countPair docs tags (lo, hi)
  if count = 0 then none
  else
    let freq1 := match tags.get? lo with
      | some t => docFreq docs t
      | none => 0
    let freq2 := match tags.get? hi with
      | some t => docFreq docs t
      | none => 0
    if freq1 = 0 ∨ freq2 = 0 then none
    else
      let total := (docs.length : ℝ)
      let p_xy := (count : ℝ) / total
      let p_x := (freq1 : ℝ) / total
      let p_y := (freq2 : ℝ) / total
      let pmi := Real.log (p_xy / (p_x * p_y))
      let npmi := pmi / (- Real.log p_xy)
      some ((npmi + 1) / 2)

/-- Method `CooccurrenceMatrix::build_from_documents` (cooccurrence.rs
93-194) applied to a fresh matrix (each claim builds on `new()`; the source
method mutates `self` in place). -/
noncomputable def CooccurrenceMatrix.build_from_documents
    (docs : List DocumentInput) : CooccurrenceMatrix :=
  if docs.length = 0 then CooccurrenceMatrix.new
  else
    { tags := sortedTags docs
      weights := builtWeights docs
      tag_freq := fun t => if t ∈ docTags docs then some (docFreq docs t) else none
      total_docs := docs.length }

/-- A tag relation returned by the query API (cooccurrence.rs 21-31); `count`
is the saturating `u32` cast of `weight * 100`. -/
structure TagCooccurrence where
  tag1 : String
  tag2 : String
  weight : ℝ
  count : ℕ

/-- Method `CooccurrenceMatrix::get_cooccurrence` (cooccurrence.rs 201-213). -/
noncomputable def CooccurrenceMatrix.get_cooccurrence (M : CooccurrenceMatrix)
    (tag1 tag2 : String) : ℝ :=
  match tagIndexGet M.tags tag1 with
  | none => 0
  | some idx1 =>
    match tagIndexGet M.tags tag2 with
    | none => 0
    | some idx2 => (M.weights (idx1, idx2)).getD 0

/-- Method `CooccurrenceMatrix::get_related_tags` (cooccurrence.rs 220-262):
scan the row, keep weights above the threshold, sort by weight descending
(stable, as Rust `sort_by`), truncate. -/
noncomputable def CooccurrenceMatrix.get_related_tags (M : CooccurrenceMatrix)
    (tag : String) (top_k : Option ℕ) (min_weight : Option ℝ) : List TagCooccurrence :=
  let k := top_k.getD 10
  let threshold := min_weight.getD 0.1
  match tagIndexGet M.tags tag with
  | none => []
  | some idx =>
    let related := M.tags.enum.filterMap fun p =>
      if p.1 = idx then none
      else
        let weight := (M.weights (idx, p.1)).getD 0
        if threshold ≤ weight then some ⟨tag, p.2, weight, ⌊weight * 100⌋₊⟩
        else none
    (List.insertionSort (fun a b => b.weight ≤ a.weight) related).take k

/-- BFS state of `expand_tags`: the weight map, the visited set, and the
items pushed to the back of the frontier deque for the next depth. -/
structure ExpandState where
  expanded : List (String × ℝ)
  visited : List String
  queue : List String

/-- One related-tag iteration of the BFS inner loop (cooccurrence.rs
303-315): relax the weight and enqueue first-time visits. -/
noncomputable def expandRelStep (decay_mult current_weight : ℝ)
    (acc : ExpandState) (rel : TagCooccurrence) : ExpandState :=
  let new_weight := current_weight * rel.weight * decay_mult
  let existing := (alGet acc.expanded rel.tag2).getD 0
  if existing < new_weight then
    let acc1 := { acc with expanded := alPut acc.expanded rel.tag2 new_weight }
    if rel.tag2 ∈ acc.visited then acc1
    else { acc1 with visited := acc1.visited ++ [rel.tag2], queue := acc1.queue ++ [rel.tag2] }
  else acc

/-- Drain one frontier element (cooccurrence.rs 295-316). -/
noncomputable def expandProcessTag (M : CooccurrenceMatrix) (decay_mult : ℝ)
    (acc : ExpandState) (tag : String) : ExpandState :=
  let current_weight := (alGet acc.expanded tag).getD 0
  let related := M.get_related_tags tag (some 5) (some 0.2)
  related.foldl (expandRelStep decay_mult current_weight) acc

/-- The depth loop of `expand_tags` (cooccurrence.rs 291-317): at depth index
`d` the multiplier is `decay^(d+1)`; the whole current frontier is drained
and the freshly enqueued tags become the next frontier. -/
noncomputable def expandLoop (M : CooccurrenceMatrix) (decay : ℝ) :
    ℕ → ℕ → List String → List (String × ℝ) → List String → List (String × ℝ)
  | _, 0, _, expanded, _ => expanded
  | dIdx, Nat.succ r, frontier, expanded, visited =>
    let decay_mult := decay ^ (dIdx + 1)
    let st := frontier.foldl (expandProcessTag M decay_mult) ⟨expanded, visited, []⟩
    expandLoop M decay (dIdx + 1) r st.queue st.expanded st.visited

/-- Method `CooccurrenceMatrix::expand_tags` (cooccurrence.rs 271-338):
seeds enter with weight 1, BFS diffusion relaxes weights, and the result is
sorted by weight descending. -/
noncomputable def CooccurrenceMatrix.expand_tags (M : CooccurrenceMatrix)
    (seeds : List String) (depth : Option ℕ) (decay_factor : Option ℝ) :
    List TagCooccurrence :=
  let max_depth := depth.getD 2
  let decay := decay_factor.getD 0.7
  let expanded0 := seeds.foldl (fun m s => alPut m s 1) []
  let visited0 := seeds.foldl (fun vs s => if s ∈ vs then vs else vs ++ [s]) []
  let final := expandLoop M decay 0 max_depth seeds expanded0 visited0
  let results := final.map fun p => TagCooccurrence.mk "" p.1 p.2 ⌊p.2 * 100⌋₊
  List.insertionSort (fun a b => b.weight ≤ a.weight) results

/-- The JSON document written by `TagCooccurrenceMatrix::to_json`
(tagmemo.rs 262-275), modelled structurally: serde round-trips every `f64`
and every map entry exactly, so the JSON text is represented by its parsed
content. -/
structure TagMemoJson where
  alpha : ℝ
  beta : ℝ
  cooccurrence : List (String × List (String × ℝ))
  frequencies : List (String × ℝ)
  total_count : ℝ

/-- Method `TagCooccurrenceMatrix::to_json` (tagmemo.rs 262-275). -/
noncomputable def TagCooccurrenceMatrix.to_json (M : TagCooccurrenceMatrix) : TagMemoJson :=
  ⟨M.alpha, M.beta, M.cooccurrence, M.frequencies, M.total_count⟩

/-- Method `TagCooccurrenceMatrix::from_json` (tagmemo.rs 278-295); the
threshold is reset to 0. -/
noncomputable def TagCooccurrenceMatrix.from_json (data : TagMemoJson) : TagCooccurrenceMatrix :=
  ⟨data.alpha, data.beta, data.cooccurrence, data.frequencies, data.total_count, 0⟩

/-- The JSON document written by `CooccurrenceMatrix::to_json`
(cooccurrence.rs 412-463): tags, the `tagFreq` object, only the strict upper
triangle `i < j` of `weights`, and `totalDocs`. -/
structure NpmiJson where
  tags : List String
  tagFreq : List (String × ℕ)
  weights : List ((ℕ × ℕ) × ℝ)
  totalDocs : ℕ

/-- Method `CooccurrenceMatrix::to_json` (cooccurrence.rs 412-463); the
weight entries are the stored pairs with `i < j` (for matrices built from
documents all stored indices lie below `tags.length`). -/
noncomputable def CooccurrenceMatrix.to_json (M : CooccurrenceMatrix) : NpmiJson :=
  { tags := M.tags
    tagFreq := M.tags.filterMap fun t => (M.tag_freq t).map fun f => (t, f)
    weights := (List.range M.tags.length).flatMap fun i =>
      (List.range M.tags.length).filterMap fun j =>
        if i < j then (M.weights (i, j)).map fun w => ((i, j), w) else none
    totalDocs := M.total_docs }

/-- Method `CooccurrenceMatrix::from_json` (cooccurrence.rs 467-526): the
tag list and `tagFreq` are restored as parsed and every serialized weight is
mirrored to both orderings. -/
noncomputable def CooccurrenceMatrix.from_json (data : NpmiJson) : CooccurrenceMatrix :=
  { tags := data.tags
    weights := fun p =>
      (data.weights.find? fun e => e.1 == p || e.1 == (p.2, p.1)).map fun e => e.2
    tag_freq := fun t => alGet data.tagFreq t
    total_docs := data.totalDocs }

/-- Documents with an in-document duplicate tag, exercising the missing
deduplication of `build_from_documents` step 4. -/
def e5docs : List DocumentInput :=
  [⟨"d1", ["a", "a", "b"]⟩, ⟨"d2", ["a"]⟩, ⟨"d3", ["c"]⟩]

/-- Documents whose duplicate tag produces a diagonal (self-pair) weight. -/
def e9docs : List DocumentInput :=
  [⟨"d1", ["a", "a"]⟩, ⟨"d2", ["b"]⟩]

/-- The same documents with each document's tag list deduplicated. -/
def dedupDocs (docs : List DocumentInput) : List DocumentInput :=
  docs.map fun d => ⟨d.id, d.tags.dedup⟩

/-- Concrete tag used in witnesses and counterexamples. -/
def tagA : String := "a"

/-- Concrete tag used in witnesses and counterexamples. -/
def tagB : String := "b"

/-- Concrete tag used in witnesses and counterexamples. -/
def tagC : String := "c"

/-- Proof invariant of the `expand_tags` BFS diffusion: every recorded weight
lies in `[0,1]`, an entry keyed by a seed holds exactly `1`, an entry keyed
by a non-seed holds strictly less than `1`, and every seed is recorded with
weight `1`. -/
abbrev ExpandInv (seeds : List String) (E : List (String × ℝ)) : Prop :=
  (∀ p ∈ E, 0 ≤ p.2 ∧ p.2 ≤ 1 ∧ (p.1 ∈ seeds → p.2 = 1) ∧ (p.1 ∉ seeds → p.2 < 1))
  ∧ ∀ s ∈ seeds, alGet E s = some 1

/-- Search result input item (hybrid_search.rs 283-295).  The JSON `metadata`
string is modelled by its parsed optional `"tags"` array, the only part the
pipeline reads: `none` stands for `metadata: None` or for metadata without a
parsable tags array. -/
structure SearchResultItem where
  id : String
  content : String
  metadata_tags : Option (List String)
  score : ℝ

/-- State of `HybridSearchEngine` (hybrid_search.rs 16-25). -/
structure HybridSearchEngine where
  bm25_weight : ℝ
  vector_weight : ℝ
  tag_boost_weight : ℝ
  rrf_k : ℝ

/-- Constructor `HybridSearchEngine::new` (hybrid_search.rs 34-46): defaults
0.5 / 0.5 / 0.2, `rrf_k = 60`. -/
noncomputable def HybridSearchEngine.new
    (bm25_weight vector_weight tag_boost_weight : Option ℝ) : HybridSearchEngine :=
  ⟨bm25_weight.getD 0.5, vector_weight.getD 0.5, tag_boost_weight.getD 0.2, 60⟩

/-- Internal score builder (hybrid_search.rs 228-239). -/
structure HybridScoreBuilder where
  id : String
  content : String
  metadata_tags : Option (List String)
  bm25_score : ℝ
  bm25_rank : Option ℕ
  bm25_rrf : ℝ
  vector_score : ℝ
  vector_rank : Option ℕ
  vector_rrf : ℝ
  tag_boost_score : ℝ

/-- `HybridScoreBuilder::new` (hybrid_search.rs 242-256). -/
noncomputable def HybridScoreBuilder.new (id content : String)
    (metadata_tags : Option (List String)) : HybridScoreBuilder :=
  ⟨id, content, metadata_tags, 0, none, 0, 0, none, 0, 0⟩

/-- Output row of the fusion (hybrid_search.rs 300-325, `metadata` again
modelled by its parsed tags array). -/
structure HybridSearchResult where
  id : String
  content : String
  metadata_tags : Option (List String)
  final_score : ℝ
  bm25_score : ℝ
  bm25_rank : Option ℕ
  vector_score : ℝ
  vector_rank : Option ℕ
  tag_boost_score : ℝ
  source : String

/-- `HybridScoreBuilder::build` (hybrid_search.rs 258-280):
`final = (bm25_rrf + vector_rrf) * (1 + tag_boost_score * w)`, source tag
from which rank fields are set. -/
noncomputable def HybridScoreBuilder.build (b : HybridScoreBuilder)
    (tag_boost_weight : ℝ) : HybridSearchResult :=
  let base_score := b.bm25_rrf + b.vector_rrf
  let tag_boost := b.tag_boost_score * tag_boost_weight
  let final_score := base_score * (1 + tag_boost)
  ⟨b.id, b.content, b.metadata_tags, final_score, b.bm25_score, b.bm25_rank,
    b.vector_score, b.vector_rank, b.tag_boost_score,
    if b.bm25_rank.isSome && b.vector_rank.isSome then "both"
    else if b.bm25_rank.isSome then "bm25" else "vector"⟩

/-- One BM25 iteration of `fuse_results` (hybrid_search.rs 85-93): RRF score
`1/(k + rank + 1)` scaled by the BM25 weight, written into the
entry-or-default builder. -/
noncomputable def fuseBm25Step (e : HybridSearchEngine)
    (scores : List (String × HybridScoreBuilder)) (p : ℕ × SearchResultItem) :
    List (String × HybridScoreBuilder) :=
  let rrf_score := 1 / (e.rrf_k + (p.1 : ℝ) + 1)
  alModify scores p.2.id (HybridScoreBuilder.new p.2.id p.2.content p.2.metadata_tags)
    (fun b => { b with bm25_score := p.2.score, bm25_rank := some p.1,
                       bm25_rrf := rrf_score * e.bm25_weight })

/-- One vector iteration of `fuse_results` (hybrid_search.rs 96-104). -/
noncomputable def fuseVectorStep (e : HybridSearchEngine)
    (scores : List (String × HybridScoreBuilder)) (p : ℕ × SearchResultItem) :
    List (String × HybridScoreBuilder) :=
  let rrf_score := 1 / (e.rrf_k + (p.1 : ℝ) + 1)
  alModify scores p.2.id (HybridScoreBuilder.new p.2.id p.2.content p.2.metadata_tags)
    (fun b => { b with vector_score := p.2.score, vector_rank := some p.1,
                       vector_rrf := rrf_score * e.vector_weight })

/-- One tag-boost iteration of `fuse_results` (hybrid_search.rs 107-111):
only existing entries are touched. -/
noncomputable def fuseBoostStep (scores : List (String × HybridScoreBuilder))
    (p : String × ℝ) : List (String × HybridScoreBuilder) :=
  alAdjust scores p.1 (fun b => { b with tag_boost_score := p.2 })

/-- Method `HybridSearchEngine::fuse_results` (hybrid_search.rs 71-127).  The
Rust `scores` HashMap is modelled by an association list in insertion order;
`into_values()` iterates in arbitrary order, but the stable descending sort
fixes the output order whenever final scores are distinct. -/
noncomputable def HybridSearchEngine.fuse_results (e : HybridSearchEngine)
    (bm25_results vector_results : List SearchResultItem)
    (tag_boost_scores : Option (List (String × ℝ))) (limit : Option ℕ) :
    List HybridSearchResult :=
  let lim := limit.getD 20
  let tag_scores := tag_boost_scores.getD []
  let s1 := bm25_results.enum.foldl (fuseBm25Step e) []
  let s2 := vector_results.enum.foldl (fuseVectorStep e) s1
  let s3 := tag_scores.foldl fuseBoostStep s2
  let results := s3.map fun q => q.2.build e.tag_boost_weight
  (List.insertionSort (fun a b => b.final_score ≤ a.final_score) results).take lim

/-- Method `TagCooccurrenceMatrix::expand_query` (tagmemo.rs 203-234): query
tags enter with weight 1, unseen co-occurring tags get
`exp(cooc/sqrt(f1*f2)) * factor`, result sorted by weight descending. -/
noncomputable def TagCooccurrenceMatrix.expand_query (M : TagCooccurrenceMatrix)
    (tags : List String) (expansion_factor : Option ℝ) : List String :=
  let factor := expansion_factor.getD 0.5
  let expanded0 := tags.foldl (fun m t => alPut m t 1) []
  let expanded := tags.foldl (fun m tag =>
    match alGet M.cooccurrence tag with
    | none => m
    | some coocs => coocs.foldl (fun m2 oc =>
        if (alGet m2 oc.1).isSome then m2
        else
          let freq1 := (alGet M.frequencies tag).getD 1
          let freq2 := (alGet M.frequencies oc.1).getD 1
          alPut m2 oc.1 (Real.exp (oc.2 / Real.sqrt (freq1 * freq2)) * factor)) m) expanded0
  (List.insertionSort (fun a b => b.2 ≤ a.2) expanded).map fun p => p.1

/-- `WaveRAGConfig` (waverag.rs 25-45). -/
structure WaveRAGConfig where
  lens_max_tags : Option ℕ
  expansion_depth : Option ℕ
  expansion_threshold : Option ℝ
  expansion_max_tags : Option ℕ
  focus_top_k : Option ℕ
  focus_score_threshold : Option ℝ
  tag_memo_weight : Option ℝ
  bm25_weight : Option ℝ
  vector_weight : Option ℝ

/-- `WaveRAGConfig::default` (waverag.rs 46-60). -/
noncomputable def WaveRAGConfig.default : WaveRAGConfig :=
  ⟨some 10, some 2, some 0.3, some 20, some 10, some 0.5, some 0.65, some 0.5, some 0.5⟩

/-- State of `WaveRAGEngine` (waverag.rs 146-157); the trace counter is
dropped. -/
structure WaveRAGEngine where
  config : WaveRAGConfig
  tag_matrix : TagCooccurrenceMatrix
  cooccurrence : CooccurrenceMatrix
  hybrid_search : HybridSearchEngine

/-- Constructor `WaveRAGEngine::new` (waverag.rs 162-179). -/
noncomputable def WaveRAGEngine.new (config : Option WaveRAGConfig) : WaveRAGEngine :=
  let cfg := config.getD WaveRAGConfig.default
  ⟨cfg, TagCooccurrenceMatrix.new none none, CooccurrenceMatrix.new,
    HybridSearchEngine.new cfg.bm25_weight cfg.vector_weight cfg.tag_memo_weight⟩

/-- Phase 1 result (waverag.rs 66-74, timing dropped). -/
structure LensPhaseResult where
  tags : List String
  expanded_tags : List String

/-- Phase 1 `execute_lens_phase` (waverag.rs 194-214). -/
noncomputable def WaveRAGEngine.execute_lens_phase (e : WaveRAGEngine)
    (query_tags : List String) : LensPhaseResult :=
  let max_tags := e.config.lens_max_tags.getD 10
  let expanded := e.tag_matrix.expand_query query_tags (some 0.5)
  ⟨query_tags, expanded.take max_tags⟩

/-- Phase 2 result (waverag.rs 77-84, timing dropped). -/
structure ExpansionPhaseResult where
  all_tags : List String
  depth_reached : ℕ

/-- Phase 2 `execute_expansion_phase` (waverag.rs 217-245). -/
noncomputable def WaveRAGEngine.execute_expansion_phase (e : WaveRAGEngine)
    (seed_tags : List String) : ExpansionPhaseResult :=
  let depth := e.config.expansion_depth.getD 2
  let max_tags := e.config.expansion_max_tags.getD 20
  let threshold := e.config.expansion_threshold.getD 0.3
  let expanded := e.cooccurrence.expand_tags seed_tags (some depth) (some 0.7)
  ⟨((expanded.filter fun t => threshold ≤ t.weight).map fun t => t.tag2).take max_tags,
    depth⟩

/-- Final result row (waverag.rs 97-117, `metadata` modelled by its parsed
tags array). -/
structure WaveRAGResultItem where
  id : String
  content : String
  final_score : ℝ
  original_score : ℝ
  tag_boost_score : ℝ
  matched_tags : List String
  metadata_tags : Option (List String)
  source : String

/-- One result of the tag-boost collection loop of `execute_focus_phase`
(waverag.rs 259-287): items without a parsed tags array are skipped, others
store `compute_tag_boost(...).tag_match_score` under their id. -/
noncomputable def focusBoostStep (Mt : TagCooccurrenceMatrix)
    (query_tags : List String) (m : List (String × ℝ)) (item : SearchResultItem) :
    List (String × ℝ) :=
  match item.metadata_tags with
  | none => m
  | some content_tags =>
    let boost_result := Mt.compute_tag_boost
      ⟨query_tags, content_tags, some item.score, none, none, none⟩
    alPut m item.id boost_result.tag_match_score

/-- Phase 3 `execute_focus_phase` (waverag.rs 248-328): collect boost scores
over bm25 then vector items, fuse, filter by the score threshold, convert. -/
noncomputable def WaveRAGEngine.execute_focus_phase (e : WaveRAGEngine)
    (query_tags : List String) (bm25_results vector_results : List SearchResultItem) :
    List WaveRAGResultItem :=
  let top_k := e.config.focus_top_k.getD 10
  let score_threshold := e.config.focus_score_threshold.getD 0.5
  let tag_boost_scores := (bm25_results ++ vector_results).foldl
    (focusBoostStep e.tag_matrix query_tags) []
  let fused := e.hybrid_search.fuse_results bm25_results vector_results
    (some tag_boost_scores) (some top_k)
  (fused.filter fun r => score_threshold ≤ r.final_score).map fun r =>
    ⟨r.id, r.content, r.final_score, max r.vector_score r.bm25_score,
      (alGet tag_boost_scores r.id).getD 0, [], r.metadata_tags, r.source⟩

/-- Method `WaveRAGEngine::search` (waverag.rs 334-404), reduced to the
result list: the code ignores `config_override` (`let _config = ...`), runs
Lens on the query tags, Expansion on the lens output, and Focus with the
expansion tags as query tags; timing, trace id and the per-phase summaries
carry no further algorithmic content. -/
noncomputable def WaveRAGEngine.search (e : WaveRAGEngine) (query_tags : List String)
    (bm25_results vector_results : List SearchResultItem)
    (config_override : Option WaveRAGConfig) : List WaveRAGResultItem :=
  let lens_result := e.execute_lens_phase query_tags
  let expansion_result := e.execute_expansion_phase lens_result.expanded_tags
  e.execute_focus_phase expansion_result.all_tags bm25_results vector_results

/-- Scenario 3 configuration of the spec acceptance tests: defaults with
`focus_score_threshold = 0`. -/
noncomputable def c7cfg : WaveRAGConfig :=
  { WaveRAGConfig.default with focus_score_threshold := some 0 }

/-- Scenario 3 BM25 input. -/
noncomputable def c7bm25 : List SearchResultItem :=
  [⟨"x", "", none, 1⟩, ⟨"y", "", none, 0.5⟩]

/-- Scenario 3 vector input. -/
noncomputable def c7vector : List SearchResultItem :=
  [⟨"y", "", none, 1⟩]

-- ==================== theorems ====================

theorem alGet_alModify {V : Type} (l : List (String × V)) (k : String) (dflt : V)
    (f : V → V) (k1 : String) :
    alGet (alModify l k dflt f) k1
      = if k = k1 then some (f ((alGet l k).getD dflt)) else alGet l k1 := by
  induction l with
  | nil =>
    by_cases h : k = k1 <;> simp [alModify, alGet, h]
  | cons p rest ih =>
    obtain ⟨k0, v0⟩ := p
    by_cases h0 : k0 = k
    · subst h0
      by_cases h1 : k0 = k1 <;> simp [alModify, alGet, h1]
    · by_cases h1 : k0 = k1
      · subst h1
        have : ¬ k = k0 := fun h => h0 h.symm
        simp [alModify, alGet, h0, this]
      · simp [alModify, alGet, h0, h1, ih]

theorem cooc2Get_coocBump (c : List (String × List (String × ℝ)))
    (x y : String) (alpha beta w : ℝ) (a b : String) :
    cooc2Get (coocBump c x y alpha beta w) a b
      = if x = a ∧ y = b then some (((cooc2Get c x y).getD 0) * beta + w * alpha)
        else cooc2Get c a b := by
  unfold coocBump cooc2Get
  rw [alGet_alModify]
  by_cases hx : x = a
  · subst hx
    rw [if_pos rfl]
    simp only [Option.some_bind]
    rw [alGet_alModify]
    by_cases hy : y = b
    · subst hy
      rw [if_pos rfl]
      cases h : alGet c x <;> simp [h, alGet]
    · rw [if_neg hy, if_neg (fun hc => hy hc.2)]
      cases h : alGet c x <;> simp [h, alGet]
  · rw [if_neg hx, if_neg (fun hc => hx hc.1)]

theorem cooc2Get_coocBump_swap_ne (c : List (String × List (String × ℝ)))
    (t1 t2 : String) (alpha beta w : ℝ) (h : ¬ t1 = t2) :
    cooc2Get (coocBump c t1 t2 alpha beta w) t2 t1 = cooc2Get c t2 t1 := by
  rw [cooc2Get_coocBump, if_neg (fun hc => h hc.1)]

theorem cooc2Get_update (M : TagCooccurrenceMatrix) (t1 t2 : String) (w : Option ℝ)
    (a b : String) :
    cooc2Get (M.update t1 t2 w).cooccurrence a b
      = if t2 = a ∧ t1 = b then
          some ((cooc2Get (coocBump M.cooccurrence t1 t2 M.alpha M.beta (w.getD 1)) t2 t1).getD 0
            * M.beta + (w.getD 1) * M.alpha)
        else if t1 = a ∧ t2 = b then
          some ((cooc2Get M.cooccurrence t1 t2).getD 0 * M.beta + (w.getD 1) * M.alpha)
        else cooc2Get M.cooccurrence a b := by
  simp only [TagCooccurrenceMatrix.update]
  rw [cooc2Get_coocBump]
  by_cases h : t2 = a ∧ t1 = b
  · rw [if_pos h, if_pos h]
  · rw [if_neg h, if_neg h, cooc2Get_coocBump]

theorem coocSymm_update (M : TagCooccurrenceMatrix) (t1 t2 : String) (w : Option ℝ)
    (hsym : CoocSymm M.cooccurrence) :
    CoocSymm (M.update t1 t2 w).cooccurrence := by
  intro a b
  rw [cooc2Get_update, cooc2Get_update]
  by_cases hA1 : t2 = a ∧ t1 = b <;> by_cases hA2 : t2 = b ∧ t1 = a
  · rw [if_pos hA1, if_pos hA2]
  · have h12 : ¬ t1 = t2 := by
      rintro rfl
      exact hA2 ⟨hA1.2, hA1.1⟩
    rw [if_pos hA1, if_neg hA2, if_pos ⟨hA1.2, hA1.1⟩,
      cooc2Get_coocBump_swap_ne _ _ _ _ _ _ h12, hsym t2 t1]
  · have h12 : ¬ t1 = t2 := by
      rintro rfl
      exact hA1 ⟨hA2.2, hA2.1⟩
    rw [if_neg hA1, if_pos hA2, if_pos ⟨hA2.2, hA2.1⟩,
      cooc2Get_coocBump_swap_ne _ _ _ _ _ _ h12, hsym t2 t1]
  · rw [if_neg hA1, if_neg hA2,
      if_neg (fun h : t1 = a ∧ t2 = b => hA2 ⟨h.2, h.1⟩),
      if_neg (fun h : t1 = b ∧ t2 = a => hA1 ⟨h.2, h.1⟩), hsym a b]

theorem coocSymm_batch_update (M : TagCooccurrenceMatrix) (us : List TagPairUpdate)
    (hsym : CoocSymm M.cooccurrence) :
    CoocSymm (M.batch_update us).cooccurrence := by
  induction us generalizing M with
  | nil => exact hsym
  | cons u rest ih =>
    exact ih _ (coocSymm_update M u.tag1 u.tag2 u.weight hsym)

theorem coocSymm_applyTagOps (M : TagCooccurrenceMatrix) (ops : List TagOp)
    (hsym : CoocSymm M.cooccurrence) :
    CoocSymm (applyTagOps M ops).cooccurrence := by
  induction ops generalizing M with
  | nil => exact hsym
  | cons op rest ih =>
    cases op with
    | single t1 t2 w => exact ih _ (coocSymm_update M t1 t2 w hsym)
    | batch us => exact ih _ (coocSymm_batch_update M us hsym)

theorem alModify_add_pos (l : List (String × ℝ)) (k : String) (w : ℝ) (hw : 0 < w)
    (hl : ∀ t v, alGet l t = some v → 0 < v) :
    ∀ t v, alGet (alModify l k 0 (fun x => x + w)) t = some v → 0 < v := by
  intro t v hv
  rw [alGet_alModify] at hv
  by_cases hk : k = t
  · rw [if_pos hk] at hv
    obtain rfl : (alGet l k).getD 0 + w = v := by injection hv
    have : 0 ≤ (alGet l k).getD 0 := by
      cases hg : alGet l k
      · simp
      · simpa using le_of_lt (hl k _ (hk ▸ hg))
    linarith
  · rw [if_neg hk] at hv
    exact hl t v hv

theorem coocBump_getD_nonneg (c : List (String × List (String × ℝ)))
    (t1 t2 : String) (alpha beta w : ℝ) (hb : 0 ≤ beta) (hwa : 0 ≤ w * alpha)
    (hc : ∀ a b v, cooc2Get c a b = some v → 0 < v) (a b : String) :
    0 ≤ (cooc2Get (coocBump c t1 t2 alpha beta w) a b).getD 0 := by
  have base : ∀ x y, 0 ≤ (cooc2Get c x y).getD 0 := by
    intro x y
    cases hg : cooc2Get c x y
    · simp
    · simpa using le_of_lt (hc x y _ hg)
  rw [cooc2Get_coocBump]
  by_cases h : t1 = a ∧ t2 = b
  · rw [if_pos h]
    have := base t1 t2
    have : 0 ≤ (cooc2Get c t1 t2).getD 0 * beta := mul_nonneg this hb
    simpa using add_nonneg this hwa
  · rw [if_neg h]
    exact base a b

theorem posMatrix_update (M : TagCooccurrenceMatrix) (t1 t2 : String) (w : Option ℝ)
    (h : PosMatrix M) (hw : 0 < w.getD 1) : PosMatrix (M.update t1 t2 w) := by
  obtain ⟨ha, hb, htot, hfreq, hcooc⟩ := h
  refine ⟨ha, hb, ?_, ?_, ?_⟩
  · have : (0:ℝ) ≤ w.getD 1 * 2 := by positivity
    show 0 ≤ M.total_count + w.getD 1 * 2
    linarith
  · show ∀ t v, alGet (alModify (alModify M.frequencies t1 0 (fun v => v + w.getD 1))
        t2 0 (fun v => v + w.getD 1)) t = some v → 0 < v
    exact alModify_add_pos _ t2 _ hw (alModify_add_pos _ t1 _ hw hfreq)
  · intro a b v hv
    have hwa : 0 < w.getD 1 * M.alpha := mul_pos hw ha
    rw [cooc2Get_update] at hv
    by_cases h1 : t2 = a ∧ t1 = b
    · rw [if_pos h1] at hv
      obtain rfl : _ = v := by injection hv
      have hnn := coocBump_getD_nonneg M.cooccurrence t1 t2 M.alpha M.beta (w.getD 1)
        hb (le_of_lt hwa) hcooc t2 t1
      have : 0 ≤ (cooc2Get (coocBump M.cooccurrence t1 t2 M.alpha M.beta (w.getD 1)) t2 t1).getD 0
          * M.beta := mul_nonneg hnn hb
      linarith
    · rw [if_neg h1] at hv
      by_cases h2 : t1 = a ∧ t2 = b
      · rw [if_pos h2] at hv
        obtain rfl : _ = v := by injection hv
        have : 0 ≤ (cooc2Get M.cooccurrence t1 t2).getD 0 := by
          cases hg : cooc2Get M.cooccurrence t1 t2
          · simp
          · simpa using le_of_lt (hcooc t1 t2 _ hg)
        have : 0 ≤ (cooc2Get M.cooccurrence t1 t2).getD 0 * M.beta := mul_nonneg this hb
        linarith
      · rw [if_neg h2] at hv
        exact hcooc a b v hv

theorem posMatrix_new : PosMatrix (TagCooccurrenceMatrix.new none none) := by
  refine ⟨by norm_num [TagCooccurrenceMatrix.new], by norm_num [TagCooccurrenceMatrix.new],
    by norm_num [TagCooccurrenceMatrix.new], ?_, ?_⟩
  · intro t v hv
    simp [TagCooccurrenceMatrix.new, alGet] at hv
  · intro a b v hv
    simp [TagCooccurrenceMatrix.new, cooc2Get, alGet] at hv

theorem posMatrix_applyWeightedUpdates (updates : List (String × String × ℝ))
    (hw : ∀ u ∈ updates, 0 < u.2.2) (M : TagCooccurrenceMatrix) (h : PosMatrix M) :
    PosMatrix (applyWeightedUpdates M updates) := by
  induction updates generalizing M with
  | nil => exact h
  | cons u rest ih =>
    refine ih (fun x hx => hw x (List.mem_cons_of_mem u hx)) _ ?_
    have := posMatrix_update M u.1 u.2.1 (some u.2.2) h
    simpa using this (hw u (List.mem_cons_self u rest))

/-- C1: for every sequence of `update`/`batch_update` calls applied to a
freshly created matrix (any `alpha`, `beta`, tags and weights), the
co-occurrence table stays exactly symmetric: `cooc[a][b]` and `cooc[b][a]`
are equal as optional values, so each is present iff the other is. -/
theorem update_batch_update_cooccurrence_symmetric
    (alpha beta : Option ℝ) (ops : List TagOp) (a b : String) :
    cooc2Get (applyTagOps (TagCooccurrenceMatrix.new alpha beta) ops).cooccurrence a b
      = cooc2Get (applyTagOps (TagCooccurrenceMatrix.new alpha beta) ops).cooccurrence b a := by
  refine coocSymm_applyTagOps _ ops ?_ a b
  intro x y
  simp [TagCooccurrenceMatrix.new, cooc2Get, alGet]

/-- C4: on every matrix state reachable from a fresh matrix by `update` calls
with positive weights, `compute_pmi` returns 0 whenever the total count, either
frequency, or the co-occurrence entry is 0, and otherwise it is the logarithm
of a strictly positive real ratio (so, in f64 terms, never NaN and never
infinite from a nonpositive argument). -/
theorem compute_pmi_zero_guards_and_finite (updates : List (String × String × ℝ))
    (hw : ∀ u ∈ updates, 0 < u.2.2) (a b : String) (M : TagCooccurrenceMatrix)
    (hM : M = applyWeightedUpdates (TagCooccurrenceMatrix.new none none) updates) :
    ((M.total_count = 0 ∨ (alGet M.frequencies a).getD 0 = 0
        ∨ (alGet M.frequencies b).getD 0 = 0
        ∨ (cooc2Get M.cooccurrence a b).getD 0 = 0)
      → M.compute_pmi a b = 0)
    ∧ (M.compute_pmi a b = 0
        ∨ ∃ x : ℝ, 0 < x ∧ M.compute_pmi a b = Real.log x) := by
  have hP : PosMatrix M := by
    rw [hM]
    exact posMatrix_applyWeightedUpdates updates hw _ posMatrix_new
  constructor
  · intro h
    simp only [TagCooccurrenceMatrix.compute_pmi]
    split_ifs with h1 h2 h3
    · rfl
    · rfl
    · rfl
    · exfalso
      rcases h with h | h | h | h
      · exact h1 h
      · exact h2 (Or.inl h)
      · exact h2 (Or.inr h)
      · exact h3 h
  · by_cases h1 : M.total_count = 0
    · left
      simp only [TagCooccurrenceMatrix.compute_pmi, if_pos h1]
    · by_cases h2 : (alGet M.frequencies a).getD 0 = 0 ∨ (alGet M.frequencies b).getD 0 = 0
      · left
        simp only [TagCooccurrenceMatrix.compute_pmi, if_neg h1, if_pos h2]
      · by_cases h3 : (cooc2Get M.cooccurrence a b).getD 0 = 0
        · left
          simp only [TagCooccurrenceMatrix.compute_pmi, if_neg h1, if_neg h2, if_pos h3]
        · right
          have htot : 0 < M.total_count := lt_of_le_of_ne hP.2.2.1 (Ne.symm h1)
          have hfa0 : 0 ≤ (alGet M.frequencies a).getD 0 := by
            cases hg : alGet M.frequencies a
            · simp
            · simpa using le_of_lt (hP.2.2.2.1 a _ hg)
          have hfb0 : 0 ≤ (alGet M.frequencies b).getD 0 := by
            cases hg : alGet M.frequencies b
            · simp
            · simpa using le_of_lt (hP.2.2.2.1 b _ hg)
          have hc0 : 0 ≤ (cooc2Get M.cooccurrence a b).getD 0 := by
            cases hg : cooc2Get M.cooccurrence a b
            · simp
            · simpa using le_of_lt (hP.2.2.2.2 a b _ hg)
          have hfa : 0 < (alGet M.frequencies a).getD 0 :=
            lt_of_le_of_ne hfa0 (fun hh => h2 (Or.inl hh.symm))
          have hfb : 0 < (alGet M.frequencies b).getD 0 :=
            lt_of_le_of_ne hfb0 (fun hh => h2 (Or.inr hh.symm))
          have hc : 0 < (cooc2Get M.cooccurrence a b).getD 0 :=
            lt_of_le_of_ne hc0 (fun hh => h3 hh.symm)
          refine ⟨((cooc2Get M.cooccurrence a b).getD 0 / M.total_count)
            / (((alGet M.frequencies a).getD 0 / M.total_count)
              * ((alGet M.frequencies b).getD 0 / M.total_count)), ?_, ?_⟩
          · positivity
          · simp only [TagCooccurrenceMatrix.compute_pmi, if_neg h1, if_neg h2, if_neg h3]

/-- Witness for C4 at the single update `update("a", "b", 1)`. -/
theorem compute_pmi_zero_guards_and_finite_witness :
    (∀ u ∈ [(tagA, tagB, (1:ℝ))], 0 < u.2.2)
    ∧ (((applyWeightedUpdates (TagCooccurrenceMatrix.new none none)
            [(tagA, tagB, (1:ℝ))]).total_count = 0
        ∨ (alGet (applyWeightedUpdates (TagCooccurrenceMatrix.new none none)
            [(tagA, tagB, (1:ℝ))]).frequencies tagA).getD 0 = 0
        ∨ (alGet (applyWeightedUpdates (TagCooccurrenceMatrix.new none none)
            [(tagA, tagB, (1:ℝ))]).frequencies tagB).getD 0 = 0
        ∨ (cooc2Get (applyWeightedUpdates (TagCooccurrenceMatrix.new none none)
            [(tagA, tagB, (1:ℝ))]).cooccurrence tagA tagB).getD 0 = 0)
      → (applyWeightedUpdates (TagCooccurrenceMatrix.new none none)
          [(tagA, tagB, (1:ℝ))]).compute_pmi tagA tagB = 0)
    ∧ ((applyWeightedUpdates (TagCooccurrenceMatrix.new none none)
          [(tagA, tagB, (1:ℝ))]).compute_pmi tagA tagB = 0
        ∨ ∃ x : ℝ, 0 < x
          ∧ (applyWeightedUpdates (TagCooccurrenceMatrix.new none none)
              [(tagA, tagB, (1:ℝ))]).compute_pmi tagA tagB = Real.log x) :=
  ⟨by norm_num,
    compute_pmi_zero_guards_and_finite [(tagA, tagB, 1)] (by norm_num) tagA tagB _ rfl⟩

theorem alGet_mem {V : Type} (l : List (String × V)) (k : String) (v : V)
    (h : alGet l k = some v) : (k, v) ∈ l := by
  induction l with
  | nil => simp [alGet] at h
  | cons p rest ih =>
    obtain ⟨k1, v1⟩ := p
    by_cases hk : k1 = k
    · subst hk
      have h2 : v1 = v := by simpa [alGet] using h
      rw [← h2]
      exact List.mem_cons_self _ _
    · simp only [alGet, if_neg hk] at h
      exact List.mem_cons_of_mem _ (ih h)

theorem avgOf_nonneg (scores : List ℝ) (h0 : ∀ x ∈ scores, 0 ≤ x) : 0 ≤ avgOf scores := by
  unfold avgOf
  split_ifs with h
  · exact le_refl 0
  · exact div_nonneg (List.sum_nonneg h0) (by positivity)

theorem avgOf_le_one (scores : List ℝ) (h1 : ∀ x ∈ scores, x ≤ 1) : avgOf scores ≤ 1 := by
  unfold avgOf
  split_ifs with h
  · norm_num
  · have hlen : 0 < (scores.length : ℝ) := by
      have := List.length_pos.mpr h
      exact_mod_cast this
    rw [div_le_one hlen]
    have := List.sum_le_card_nsmul scores 1 h1
    simpa using this

theorem tagScores_bounds (M : TagCooccurrenceMatrix) (hM : Wellformed M)
    (query_tags : List String) : ∀ x ∈ tagScores M query_tags, 0 ≤ x ∧ x ≤ 1 := by
  intro x hx
  unfold tagScores at hx
  obtain ⟨t, _, rfl⟩ := List.mem_map.mp hx
  dsimp only
  split_ifs with h
  · have hf0 : 0 ≤ (alGet M.frequencies t).getD 0 := by
      cases hg : alGet M.frequencies t
      · simp
      · simpa using hM.1 _ (alGet_mem _ _ _ hg)
    refine ⟨div_nonneg hf0 (le_of_lt h), ?_⟩
    rw [div_le_one h]
    exact hM.2.2.2 t
  · norm_num

theorem directSpikeStep_total_ge (M : TagCooccurrenceMatrix) (hM : Wellformed M)
    (content_tags : List String) (da db : ℝ) (acc : SpikeAcc) (tag : String) :
    acc.total_spike_score ≤ (directSpikeStep M content_tags da db acc tag).total_spike_score := by
  have hfreq : 0 ≤ (alGet M.frequencies tag).getD 1 := by
    cases hg : alGet M.frequencies tag
    · norm_num
    · simpa using hM.1 _ (alGet_mem _ _ _ hg)
  have hstr : 0 ≤ Real.rpow ((alGet M.frequencies tag).getD 1) da := Real.rpow_nonneg hfreq _
  simp only [directSpikeStep]
  split_ifs with h hpen
  · dsimp only
    have : 0 ≤ Real.rpow ((alGet M.frequencies tag).getD 1) da
        / Real.log (globalFreqOf M tag + db) := div_nonneg hstr (le_of_lt hpen)
    linarith
  · dsimp only
    linarith
  · exact le_refl _

theorem foldl_directSpikeStep_total_ge (M : TagCooccurrenceMatrix) (hM : Wellformed M)
    (content_tags : List String) (da db : ℝ) (l : List String) :
    ∀ acc : SpikeAcc,
      acc.total_spike_score
        ≤ (l.foldl (directSpikeStep M content_tags da db) acc).total_spike_score := by
  induction l with
  | nil => intro acc; exact le_refl _
  | cons t rest ih =>
    intro acc
    exact le_trans (directSpikeStep_total_ge M hM content_tags da db acc t) (ih _)

theorem directSpike_total_nonneg (M : TagCooccurrenceMatrix) (hM : Wellformed M)
    (content_tags : List String) (da db : ℝ) (query_tags : List String) :
    0 ≤ (directSpike M content_tags da db query_tags).total_spike_score := by
  have := foldl_directSpikeStep_total_ge M hM content_tags da db query_tags ⟨0, [], []⟩
  simpa [directSpike] using this

theorem expansionPairStep_total_ge (M : TagCooccurrenceMatrix)
    (content_tags matched_tags : List String) (da db : ℝ) (acc : ExpandSpikeAcc)
    (pair : String × ℝ) (hpair : 0 ≤ pair.2) :
    acc.total_spike_score
      ≤ (expansionPairStep M content_tags matched_tags da db acc pair).total_spike_score := by
  have hw : 0 ≤ pair.2 * 0.5 := by linarith
  have hstr : 0 ≤ Real.rpow (pair.2 * 0.5) da := Real.rpow_nonneg hw _
  simp only [expansionPairStep]
  split_ifs with h hpen
  · dsimp only
    have : 0 ≤ Real.rpow (pair.2 * 0.5) da / Real.log (globalFreqOf M pair.1 + db) :=
      div_nonneg hstr (le_of_lt hpen)
    linarith
  · dsimp only
    linarith
  · exact le_refl _

theorem foldl_expansionPairStep_total_ge (M : TagCooccurrenceMatrix)
    (content_tags matched_tags : List String) (da db : ℝ) (coocs : List (String × ℝ))
    (hc : ∀ p ∈ coocs, 0 ≤ p.2) :
    ∀ acc : ExpandSpikeAcc,
      acc.total_spike_score
        ≤ (coocs.foldl (expansionPairStep M content_tags matched_tags da db) acc).total_spike_score := by
  induction coocs with
  | nil => intro acc; exact le_refl _
  | cons p rest ih =>
    intro acc
    refine le_trans (expansionPairStep_total_ge M content_tags matched_tags da db acc p
      (hc p (List.mem_cons_self p rest))) ?_
    exact ih (fun q hq => hc q (List.mem_cons_of_mem p hq)) _

theorem expansionSpikeStep_total_ge (M : TagCooccurrenceMatrix) (hM : Wellformed M)
    (content_tags matched_tags : List String) (da db : ℝ) (acc : ExpandSpikeAcc) (tag : String) :
    acc.total_spike_score
      ≤ (expansionSpikeStep M content_tags matched_tags da db acc tag).total_spike_score := by
  unfold expansionSpikeStep
  cases hg : alGet M.cooccurrence tag with
  | none => exact le_refl _
  | some coocs =>
    exact foldl_expansionPairStep_total_ge M content_tags matched_tags da db coocs
      (fun p hp => hM.2.1 _ (alGet_mem _ _ _ hg) p hp) acc

theorem expansionSpike_total_ge (M : TagCooccurrenceMatrix) (hM : Wellformed M)
    (content_tags matched_tags : List String) (da db : ℝ) (query_tags : List String) :
    ∀ acc : ExpandSpikeAcc,
      acc.total_spike_score
        ≤ (expansionSpike M content_tags matched_tags da db query_tags acc).total_spike_score := by
  unfold expansionSpike
  induction query_tags with
  | nil => intro acc; exact le_refl _
  | cons t rest ih =>
    intro acc
    exact le_trans (expansionSpikeStep_total_ge M hM content_tags matched_tags da db acc t)
      (ih _)

theorem boost_arith (S db orig : ℝ) (hS : 0 ≤ S) (hdb : 0 < db) :
    1 + S / (S + db * 2) * 0.5 ≤ 1.5 ∧ min (orig * (1 + S / (S + db * 2) * 0.5)) 1 ≤ 1 := by
  have hpos : 0 < S + db * 2 := by linarith
  have h1 : S / (S + db * 2) ≤ 1 := by
    rw [div_le_one hpos]
    linarith
  constructor
  · linarith
  · exact min_le_right _ _

/-- C2 (amended): on every matrix state with nonnegative stored entries and
per-tag frequency bounded by the total (as any state built from
nonnegative-weight updates is), and for every parameter set whose `beta_base`
(defaulted to 2) is strictly positive, `boost_factor ≤ 1.5` and
`boosted_score ≤ 1`.  With a sufficiently negative `beta_base` the cap is
violated, see the counterexample. -/
theorem boost_factor_le_cap_of_wellformed (M : TagCooccurrenceMatrix)
    (params : TagBoostParams) (hM : Wellformed M)
    (hb : 0 < params.beta_base.getD 2) :
    (M.compute_tag_boost params).boost_factor ≤ 1.5
    ∧ (M.compute_tag_boost params).boosted_score ≤ 1 := by
  have havg0 : 0 ≤ avgOf (tagScores M params.query_tags) :=
    avgOf_nonneg _ (fun x hx => (tagScores_bounds M hM _ x hx).1)
  have havg1 : avgOf (tagScores M params.query_tags) ≤ 1 :=
    avgOf_le_one _ (fun x hx => (tagScores_bounds M hM _ x hx).2)
  have hdb : 0 < params.beta_base.getD 2
      + (1 - avgOf (tagScores M params.query_tags)) * 3 := by nlinarith
  simp only [TagCooccurrenceMatrix.compute_tag_boost]
  refine boost_arith _ _ _ ?_ hdb
  set da := clampR (params.alpha_min.getD 1.5
    + (params.alpha_max.getD 3.5 - params.alpha_min.getD 1.5)
      * avgOf (tagScores M params.query_tags))
    (params.alpha_min.getD 1.5) (params.alpha_max.getD 3.5) with hda
  set db2 := params.beta_base.getD 2 + (1 - avgOf (tagScores M params.query_tags)) * 3 with hdb2
  exact le_trans (directSpike_total_nonneg M hM params.content_tags da db2 params.query_tags)
    (expansionSpike_total_ge M hM params.content_tags
      (directSpike M params.content_tags da db2 params.query_tags).matched_tags
      da db2 params.query_tags
      ⟨(directSpike M params.content_tags da db2 params.query_tags).total_spike_score, [],
        (directSpike M params.content_tags da db2 params.query_tags).spike_details⟩)

theorem expansionSpike_nil_cooc (M : TagCooccurrenceMatrix) (hnil : M.cooccurrence = [])
    (ct mt : List String) (da db : ℝ) (l : List String) (acc : ExpandSpikeAcc) :
    expansionSpike M ct mt da db l acc = acc := by
  unfold expansionSpike
  induction l generalizing acc with
  | nil => rfl
  | cons t rest ih =>
    rw [List.foldl_cons]
    have hstep : expansionSpikeStep M ct mt da db acc t = acc := by
      unfold expansionSpikeStep
      rw [hnil]
      rfl
    rw [hstep]
    exact ih _

/-- Witness for C2 (amended) at the empty matrix, query = content = `["a"]`,
original score `0.5`, default tuning parameters. -/
theorem boost_factor_le_cap_of_wellformed_witness :
    Wellformed (TagCooccurrenceMatrix.new none none)
    ∧ (0:ℝ) < ((⟨[tagA], [tagA], some 0.5, none, none, none⟩ : TagBoostParams).beta_base.getD 2)
    ∧ ((TagCooccurrenceMatrix.new none none).compute_tag_boost
        ⟨[tagA], [tagA], some 0.5, none, none, none⟩).boost_factor ≤ 1.5
    ∧ ((TagCooccurrenceMatrix.new none none).compute_tag_boost
        ⟨[tagA], [tagA], some 0.5, none, none, none⟩).boosted_score ≤ 1 := by
  have hW : Wellformed (TagCooccurrenceMatrix.new none none) := by
    refine ⟨?_, ?_, ?_, ?_⟩
    · intro p hp
      simp [TagCooccurrenceMatrix.new] at hp
    · intro q hq
      simp [TagCooccurrenceMatrix.new] at hq
    · norm_num [TagCooccurrenceMatrix.new]
    · intro t
      simp [TagCooccurrenceMatrix.new, alGet]
  have hb : (0:ℝ)
      < ((⟨[tagA], [tagA], some 0.5, none, none, none⟩ : TagBoostParams).beta_base.getD 2) := by
    norm_num
  have h := boost_factor_le_cap_of_wellformed (TagCooccurrenceMatrix.new none none)
    ⟨[tagA], [tagA], some 0.5, none, none, none⟩ hW hb
  exact ⟨hW, hb, h.1, h.2⟩

/-- C2 is false as stated: with `beta_base = -4` (the claim quantifies over all
`beta_base`) and three unknown query tags that directly match the content tags,
the empty matrix yields `dynamic_beta = -1`, each match scores
`1^1.5 = 1` (the `ln 0` penalty fails the `> 0` test), the total spike is 3,
`normalized = 3/(3-2) = 3` and `boost_factor = 2.5 > 1.5`. -/
theorem boost_factor_exceeds_claimed_cap :
    1.5 < ((TagCooccurrenceMatrix.new none none).compute_tag_boost
      ⟨[tagA, tagB, tagC], [tagA, tagB, tagC], none, none, none, some (-4)⟩).boost_factor := by
  have hfreq : ∀ t, alGet (TagCooccurrenceMatrix.new none none).frequencies t = none := by
    intro t
    simp [TagCooccurrenceMatrix.new, alGet]
  have hcooc : ∀ t, alGet (TagCooccurrenceMatrix.new none none).cooccurrence t = none := by
    intro t
    simp [TagCooccurrenceMatrix.new, alGet]
  have hnil : (TagCooccurrenceMatrix.new none none).cooccurrence = [] := by
    simp [TagCooccurrenceMatrix.new]
  have havg : avgOf (tagScores (TagCooccurrenceMatrix.new none none) [tagA, tagB, tagC]) = 0 := by
    simp [avgOf, tagScores, TagCooccurrenceMatrix.new, alGet]
  have hstep : ∀ (t : String), lowerStr t ∈ [tagA, tagB, tagC].map lowerStr → ∀ acc : SpikeAcc,
      directSpikeStep (TagCooccurrenceMatrix.new none none) [tagA, tagB, tagC] 1.5 (-1) acc t
        = ⟨acc.total_spike_score + 1, acc.matched_tags ++ [t],
            acc.spike_details ++ [⟨t, 1, 1, 1⟩]⟩ := by
    intro t hm acc
    simp only [directSpikeStep]
    rw [if_pos hm]
    norm_num [hfreq, globalFreqOf, hcooc, Real.one_rpow, Real.log_zero]
  have hdirect : directSpike (TagCooccurrenceMatrix.new none none) [tagA, tagB, tagC] 1.5 (-1)
      [tagA, tagB, tagC]
      = ⟨3, [tagA, tagB, tagC], [⟨tagA, 1, 1, 1⟩, ⟨tagB, 1, 1, 1⟩, ⟨tagC, 1, 1, 1⟩]⟩ := by
    simp only [directSpike, List.foldl_cons, List.foldl_nil]
    rw [hstep tagA (by decide), hstep tagB (by decide), hstep tagC (by decide)]
    norm_num
  simp only [TagCooccurrenceMatrix.compute_tag_boost, Option.getD_none, Option.getD_some]
  rw [havg]
  have e1 : (1.5:ℝ) + (3.5 - 1.5) * 0 = 1.5 := by norm_num
  have e2 : clampR 1.5 1.5 3.5 = 1.5 := by
    unfold clampR
    rw [if_neg (by norm_num), if_neg (by norm_num)]
  have e3 : (-4:ℝ) + (1 - 0) * 3 = -1 := by norm_num
  rw [e1, e2, e3, hdirect]
  rw [expansionSpike_nil_cooc _ hnil]
  norm_num

theorem ctb_unknown_full :
    (TagCooccurrenceMatrix.new none none).compute_tag_boost
      ⟨[tagA], [tagA], some 0.5, none, none, none⟩
    = { original_score := 0.5
        boosted_score := min (0.5 * (1 + (1 / Real.log 6) / (1 / Real.log 6 + 5 * 2) * 0.5)) 1
        matched_tags := [tagA]
        expansion_tags := []
        boost_factor := 1 + (1 / Real.log 6) / (1 / Real.log 6 + 5 * 2) * 0.5
        tag_match_score := 1 / Real.log 6
        spike_details := [⟨tagA, 1, 1, 1 / Real.log 6⟩]
        dynamic_alpha := 1.5
        dynamic_beta := 5 } := by
  have hfreq : ∀ t, alGet (TagCooccurrenceMatrix.new none none).frequencies t = none := by
    intro t
    simp [TagCooccurrenceMatrix.new, alGet]
  have hcooc : ∀ t, alGet (TagCooccurrenceMatrix.new none none).cooccurrence t = none := by
    intro t
    simp [TagCooccurrenceMatrix.new, alGet]
  have hnil : (TagCooccurrenceMatrix.new none none).cooccurrence = [] := by
    simp [TagCooccurrenceMatrix.new]
  have havg : avgOf (tagScores (TagCooccurrenceMatrix.new none none) [tagA]) = 0 := by
    simp [avgOf, tagScores, TagCooccurrenceMatrix.new, alGet]
  have hlog : 0 < Real.log 6 := Real.log_pos (by norm_num)
  have hstep : ∀ acc : SpikeAcc,
      directSpikeStep (TagCooccurrenceMatrix.new none none) [tagA] 1.5 5 acc tagA
        = ⟨acc.total_spike_score + 1 / Real.log 6, acc.matched_tags ++ [tagA],
            acc.spike_details ++ [⟨tagA, 1, 1, 1 / Real.log 6⟩]⟩ := by
    intro acc
    have hm : lowerStr tagA ∈ [tagA].map lowerStr := by decide
    simp only [directSpikeStep]
    rw [if_pos hm]
    norm_num [hfreq, globalFreqOf, hcooc, Real.one_rpow, hlog]
  have hdirect : directSpike (TagCooccurrenceMatrix.new none none) [tagA] 1.5 5 [tagA]
      = ⟨0 + 1 / Real.log 6, [tagA], [⟨tagA, 1, 1, 1 / Real.log 6⟩]⟩ := by
    simp only [directSpike, List.foldl_cons, List.foldl_nil]
    rw [hstep]
    norm_num
  simp only [TagCooccurrenceMatrix.compute_tag_boost, Option.getD_none, Option.getD_some]
  rw [havg]
  have e1 : (1.5:ℝ) + (3.5 - 1.5) * 0 = 1.5 := by norm_num
  have e2 : clampR 1.5 1.5 3.5 = 1.5 := by
    unfold clampR
    rw [if_neg (by norm_num), if_neg (by norm_num)]
  have e3 : (2:ℝ) + (1 - 0) * 3 = 5 := by norm_num
  rw [e1, e2, e3, hdirect]
  rw [expansionSpike_nil_cooc _ hnil]
  norm_num

/-- C3 is false as stated: on the empty matrix a query tag absent from
`frequencies` that directly matches a content tag does NOT contribute 0 — the
code defaults its frequency to 1 (`unwrap_or(1.0)`), so `boost_factor ≠ 1`. -/
theorem unknown_tag_direct_match_boost_factor_ne_one :
    ((TagCooccurrenceMatrix.new none none).compute_tag_boost
      ⟨[tagA], [tagA], some 0.5, none, none, none⟩).boost_factor ≠ 1 := by
  rw [ctb_unknown_full]
  have hlog : 0 < Real.log 6 := Real.log_pos (by norm_num)
  have hq : 0 < (1 / Real.log 6) / (1 / Real.log 6 + 5 * 2) * 0.5 := by positivity
  dsimp only
  intro hcontra
  nlinarith

/-- C3 (amended): a query tag absent from the frequency table is given the
default frequency 1 in the spike loop (`unwrap_or(1.0)`), not 0.  With the
empty matrix, query = content = `["a"]` and the defaults, the single match
scores `1^1.5 / ln(1+5) = 1/ln 6`, so `boost_factor = 1 + (1/ln 6)/((1/ln 6)
+ 10) · 0.5 > 1` and the boosted score strictly exceeds the original score. -/
theorem unknown_tag_uses_default_frequency_one :
    ((TagCooccurrenceMatrix.new none none).compute_tag_boost
      ⟨[tagA], [tagA], some 0.5, none, none, none⟩).boost_factor
      = 1 + (1 / Real.log 6) / (1 / Real.log 6 + 5 * 2) * 0.5
    ∧ ((TagCooccurrenceMatrix.new none none).compute_tag_boost
        ⟨[tagA], [tagA], some 0.5, none, none, none⟩).original_score
      < ((TagCooccurrenceMatrix.new none none).compute_tag_boost
        ⟨[tagA], [tagA], some 0.5, none, none, none⟩).boosted_score := by
  have hlog : 0 < Real.log 6 := Real.log_pos (by norm_num)
  have hq : 0 < (1 / Real.log 6) / (1 / Real.log 6 + 5 * 2) * 0.5 := by positivity
  rw [ctb_unknown_full]
  refine ⟨rfl, ?_⟩
  dsimp only
  refine lt_min ?_ ?_
  · nlinarith
  · norm_num

theorem l2norm_l2normalize (v : List ℝ) (h : 0 < l2norm v) :
    l2norm (l2normalize v) = 1 := by
  unfold l2normalize
  rw [if_pos h]
  have hSpos : 0 < (v.map fun x => x * x).sum := Real.sqrt_pos.mp h
  unfold l2norm at *
  rw [List.map_map]
  have hcomp : ((fun x => x * x) ∘ fun x => x / Real.sqrt ((v.map fun x => x * x).sum))
      = fun x => x * x * ((Real.sqrt ((v.map fun x => x * x).sum))⁻¹
        * (Real.sqrt ((v.map fun x => x * x).sum))⁻¹) := by
    funext x
    simp [div_eq_mul_inv]
    ring
  rw [hcomp, List.sum_map_mul_right]
  have hmul : Real.sqrt ((v.map fun x => x * x).sum)
      * Real.sqrt ((v.map fun x => x * x).sum) = (v.map fun x => x * x).sum :=
    Real.mul_self_sqrt (le_of_lt hSpos)
  have : (v.map fun x => x * x).sum
      * ((Real.sqrt ((v.map fun x => x * x).sum))⁻¹
        * (Real.sqrt ((v.map fun x => x * x).sum))⁻¹) = 1 := by
    rw [← hmul]
    field_simp
  rw [this, Real.sqrt_one]

theorem l2norm_pair (x y : ℝ) : l2norm [x, y] = Real.sqrt (x * x + (y * y + 0)) := by
  unfold l2norm
  simp

/-- C8 is false as stated: the nonzero input vector `[2]` together with
`vector_dim = 0` takes the dimension-mismatch early return of `boost_vector`,
which hands the vector back without normalization; its L2 norm is 2, not 1. -/
theorem boost_vector_dim_mismatch_norm_ne_one :
    0 < l2norm (vbMismatchParams.original_vector)
    ∧ l2norm (((TagCooccurrenceMatrix.new none none).boost_vector
        vbMismatchParams).fused_vector) ≠ 1 := by
  have h2 : l2norm [(2:ℝ)] = 2 := by
    unfold l2norm
    rw [show (([(2:ℝ)].map fun x => x * x).sum) = 2 ^ 2 by norm_num]
    exact Real.sqrt_sq (by norm_num)
  have hfused : ((TagCooccurrenceMatrix.new none none).boost_vector
      vbMismatchParams).fused_vector = [2] := by
    unfold TagCooccurrenceMatrix.boost_vector
    rw [if_pos (by norm_num [vbMismatchParams])]
    norm_num [vbMismatchParams]
  constructor
  · show 0 < l2norm [(2:ℝ)]
    rw [h2]
    norm_num
  · rw [hfused, h2]
    norm_num

/-- C8 (amended): whenever `original_vector` has length `vector_dim` and the
blended (pre-normalization) vector computed by steps 1-5 is nonzero, the
fused vector returned by `boost_vector` has L2 norm exactly 1.  On a
dimension mismatch the raw input is returned instead, and a zero blend stays
zero. -/
theorem boost_vector_norm_one_of_dim_match (M : TagCooccurrenceMatrix)
    (params : VectorBoostParams)
    (hdim : params.original_vector.length = params.vector_dim)
    (hpre : 0 < l2norm (boostVectorCore M params).fused_vector) :
    l2norm ((M.boost_vector params).fused_vector) = 1 := by
  unfold TagCooccurrenceMatrix.boost_vector
  rw [if_neg (not_not_intro hdim)]
  exact l2norm_l2normalize _ hpre

theorem boostVectorCore_no_context_fused (M : TagCooccurrenceMatrix)
    (params : VectorBoostParams) (hq : params.query_tags = [])
    (hv : params.tag_vectors = none) :
    (boostVectorCore M params).fused_vector = params.original_vector := by
  unfold boostVectorCore
  rw [hq, hv]
  simp

/-- Witness for C8 (amended): the vector `[3,4]` with dimension 2, no query
tags and no context; the pre-normalization vector is `[3,4]` with norm 5 > 0,
and the output norm is 1. -/
theorem boost_vector_norm_one_of_dim_match_witness :
    vbWitnessParams.original_vector.length = vbWitnessParams.vector_dim
    ∧ 0 < l2norm (boostVectorCore (TagCooccurrenceMatrix.new none none)
        vbWitnessParams).fused_vector
    ∧ l2norm (((TagCooccurrenceMatrix.new none none).boost_vector
        vbWitnessParams).fused_vector) = 1 := by
  have hdim : vbWitnessParams.original_vector.length = vbWitnessParams.vector_dim := by
    norm_num [vbWitnessParams]
  have hfused : (boostVectorCore (TagCooccurrenceMatrix.new none none)
      vbWitnessParams).fused_vector = [3, 4] :=
    boostVectorCore_no_context_fused _ _ rfl rfl
  have hnorm : l2norm [(3:ℝ), 4] = 5 := by
    rw [l2norm_pair]
    rw [show (3:ℝ) * 3 + (4 * 4 + 0) = 5 ^ 2 by norm_num]
    exact Real.sqrt_sq (by norm_num)
  have hpre : 0 < l2norm (boostVectorCore (TagCooccurrenceMatrix.new none none)
      vbWitnessParams).fused_vector := by
    rw [hfused, hnorm]
    norm_num
  exact ⟨hdim, hpre,
    boost_vector_norm_one_of_dim_match (TagCooccurrenceMatrix.new none none)
      vbWitnessParams hdim hpre⟩

/-- C5 fails on the code (code bug): `build_from_documents` deduplicates tags
for the frequency table but not in the pair-counting loop.  For the documents
`[{d1: [a,a,b]}, {d2: [a]}, {d3: [c]}]` the pair `(a,b)` is counted twice
(once per occurrence of `a` in `d1`) instead of once, and the duplicate also
produces a self-pair `(a,a)`. -/
theorem build_counts_duplicate_pairs :
    countPair e5docs (sortedTags e5docs) (0, 1) = 2
    ∧ countPair (dedupDocs e5docs) (sortedTags (dedupDocs e5docs)) (0, 1) = 1
    ∧ countPair e5docs (sortedTags e5docs) (0, 0) = 1 := by decide

theorem log_three_halves_pos : 0 < Real.log (3 / 2) :=
  Real.log_pos (by norm_num)

/-- C6 fails on the code (code bug): with the duplicate-tag documents of
`e5docs` the overcounted pair `(a,b)` gets `p_xy = 2/3 > p_y = 1/3`, so
`npmi = ln 3 / ln (3/2) > 1` and the stored weight `(npmi+1)/2 ≈ 1.85` lies
outside the `[0,1]` range the code itself documents. -/
theorem build_weight_exceeds_unit_range :
    builtWeights e5docs (0, 1) = some ((Real.log 3 / Real.log (3 / 2) + 1) / 2)
    ∧ 1 < (Real.log 3 / Real.log (3 / 2) + 1) / 2 := by
  constructor
  · have htags : sortedTags e5docs = [tagA, tagB, tagC] := by decide
    have hcount : countPair e5docs [tagA, tagB, tagC] (0, 1) = 2 := by decide
    have hfa : docFreq e5docs tagA = 2 := by decide
    have hfb : docFreq e5docs tagB = 1 := by decide
    simp only [builtWeights, htags]
    norm_num [hcount, hfa, hfb, List.get?]
    have hinv : -Real.log ((2:ℝ)/3) = Real.log (3/2) := by
      rw [show ((3:ℝ)/2) = ((2:ℝ)/3)⁻¹ by norm_num, Real.log_inv]
    rw [show ((e5docs.length : ℝ)) = 3 by norm_num [show e5docs.length = 3 from rfl]]
    rw [show (2:ℝ) / 3 / (2 / 3 * (3:ℝ)⁻¹) = 3 by norm_num]
    rw [hinv]
  · have h32 : 0 < Real.log (3 / 2) := log_three_halves_pos
    have h3 : Real.log (3 / 2) < Real.log 3 := Real.log_lt_log (by norm_num) (by norm_num)
    have hdiv : 1 < Real.log 3 / Real.log (3 / 2) := (one_lt_div h32).mpr h3
    linarith

theorem tagIndexGet_lt_length (tags : List String) (t : String) (i : ℕ)
    (h : tagIndexGet tags t = some i) : i < tags.length := by
  induction tags generalizing i with
  | nil => simp [tagIndexGet] at h
  | cons s rest ih =>
    by_cases hs : s = t
    · simp [tagIndexGet, hs] at h
      simp [List.length_cons]
      omega
    · simp only [tagIndexGet, if_neg hs] at h
      cases hg : tagIndexGet rest t with
      | none => rw [hg] at h; simp at h
      | some k =>
        rw [hg] at h
        simp at h
        have := ih k hg
        simp [List.length_cons]
        omega

theorem tagIndexGet_get? (tags : List String) (t : String) (i : ℕ)
    (h : tagIndexGet tags t = some i) : tags.get? i = some t := by
  induction tags generalizing i with
  | nil => simp [tagIndexGet] at h
  | cons s rest ih =>
    by_cases hs : s = t
    · simp [tagIndexGet, hs] at h
      simp [← h, hs]
    · simp only [tagIndexGet, if_neg hs] at h
      cases hg : tagIndexGet rest t with
      | none => rw [hg] at h; simp at h
      | some k =>
        rw [hg] at h
        simp at h
        rw [← h]
        simpa using ih k hg

theorem tagIndexGet_ne_of_ne (tags : List String) (a b : String) (i j : ℕ)
    (ha : tagIndexGet tags a = some i) (hb : tagIndexGet tags b = some j)
    (hab : a ≠ b) : i ≠ j := by
  intro hij
  apply hab
  have h1 := tagIndexGet_get? tags a i ha
  have h2 := tagIndexGet_get? tags b j hb
  rw [hij] at h1
  rw [h1] at h2
  exact Option.some.inj h2

theorem sortedTags_nodup (docs : List DocumentInput) : (sortedTags docs).Nodup :=
  (List.perm_insertionSort _ _).nodup_iff.mpr (List.nodup_dedup _)

theorem mem_ordPairs (xs : List ℕ) (p : ℕ × ℕ) (h : p ∈ ordPairs xs) :
    ∃ u ∈ xs, ∃ v ∈ xs, p = (min u v, max u v) := by
  induction xs with
  | nil => simp [ordPairs] at h
  | cons x rest ih =>
    simp only [ordPairs, List.mem_append, List.mem_map] at h
    rcases h with ⟨y, hy, rfl⟩ | h
    · exact ⟨x, List.mem_cons_self _ _, y, List.mem_cons_of_mem _ hy, rfl⟩
    · obtain ⟨u, hu, v, hv, rfl⟩ := ih h
      exact ⟨u, List.mem_cons_of_mem _ hu, v, List.mem_cons_of_mem _ hv, rfl⟩

theorem countPair_ne_zero_bounds (docs : List DocumentInput) (tags : List String)
    (p : ℕ × ℕ) (h : countPair docs tags p ≠ 0) :
    p.1 < tags.length ∧ p.2 < tags.length := by
  have hmem : p ∈ docs.flatMap fun d => ordPairs (d.tags.filterMap fun t => tagIndexGet tags t) := by
    by_contra hc
    exact h (List.count_eq_zero.mpr hc)
  obtain ⟨d, _, hp⟩ := List.mem_flatMap.mp hmem
  obtain ⟨u, hu, v, hv, rfl⟩ := mem_ordPairs _ _ hp
  obtain ⟨tu, _, htu⟩ := List.mem_filterMap.mp hu
  obtain ⟨tv, _, htv⟩ := List.mem_filterMap.mp hv
  have hul := tagIndexGet_lt_length tags tu u htu
  have hvl := tagIndexGet_lt_length tags tv v htv
  constructor
  · simp only [min_def]
    split_ifs <;> assumption
  · simp only [max_def]
    split_ifs <;> assumption

theorem builtWeights_symm (docs : List DocumentInput) (i j : ℕ) :
    builtWeights docs (i, j) = builtWeights docs (j, i) := by
  simp only [builtWeights]
  rw [min_comm i j, max_comm i j]

theorem builtWeights_range (docs : List DocumentInput) (i j : ℕ) (w : ℝ)
    (h : builtWeights docs (i, j) = some w) :
    i < (sortedTags docs).length ∧ j < (sortedTags docs).length := by
  simp only [builtWeights] at h
  by_cases hc : countPair docs (sortedTags docs) (min i j, max i j) = 0
  · rw [if_pos hc] at h
    simp at h
  · have hb := countPair_ne_zero_bounds docs (sortedTags docs) (min i j, max i j) hc
    constructor
    · rcases le_total i j with hij | hij
      · simpa [min_eq_left hij] using hb.1
      · simpa [max_eq_left hij] using hb.2
    · rcases le_total i j with hij | hij
      · simpa [max_eq_right hij] using hb.2
      · simpa [min_eq_right hij] using hb.1

theorem build_from_documents_eq (docs : List DocumentInput) (h : docs.length ≠ 0) :
    CooccurrenceMatrix.build_from_documents docs
      = ⟨sortedTags docs, builtWeights docs,
          fun t => if t ∈ docTags docs then some (docFreq docs t) else none,
          docs.length⟩ := by
  unfold CooccurrenceMatrix.build_from_documents
  rw [if_neg h]

theorem get_cooccurrence_eval (M : CooccurrenceMatrix) (a b : String) (i j : ℕ)
    (ha : tagIndexGet M.tags a = some i) (hb : tagIndexGet M.tags b = some j) :
    M.get_cooccurrence a b = (M.weights (i, j)).getD 0 := by
  unfold CooccurrenceMatrix.get_cooccurrence
  rw [ha, hb]

theorem alGet_filterMap_none (ts : List String) (f : String → Option ℕ) (t : String)
    (h : t ∉ ts) : alGet (ts.filterMap fun s => (f s).map fun v => (s, v)) t = none := by
  induction ts with
  | nil => simp [alGet]
  | cons s rest ih =>
    have hts : ¬ s = t := fun hc => h (hc ▸ List.mem_cons_self s rest)
    have hrest : t ∉ rest := fun hc => h (List.mem_cons_of_mem _ hc)
    cases hfs : f s with
    | none => simp [List.filterMap_cons, hfs, ih hrest]
    | some v => simp [List.filterMap_cons, hfs, alGet, hts, ih hrest]

theorem alGet_filterMap_freq (ts : List String) (f : String → Option ℕ) (hnd : ts.Nodup)
    (t : String) :
    alGet (ts.filterMap fun s => (f s).map fun v => (s, v)) t
      = if t ∈ ts then f t else none := by
  induction ts with
  | nil => simp [alGet]
  | cons s rest ih =>
    obtain ⟨hsr, hndr⟩ := List.nodup_cons.mp hnd
    by_cases hts : s = t
    · subst hts
      cases hfs : f s with
      | none =>
        simp only [List.filterMap_cons, hfs, Option.map_none']
        rw [alGet_filterMap_none rest f s hsr]
        simp [hfs]
      | some v =>
        simp [List.filterMap_cons, hfs, alGet]
    · have hcons : t ∉ rest → t ∉ s :: rest := by
        intro htr hc
        rcases List.mem_cons.mp hc with h | h
        · exact hts h.symm
        · exact htr h
      cases hfs : f s with
      | none =>
        simp only [List.filterMap_cons, hfs, Option.map_none']
        rw [ih hndr]
        by_cases htr : t ∈ rest
        · rw [if_pos htr, if_pos (List.mem_cons_of_mem _ htr)]
        · rw [if_neg htr, if_neg (hcons htr)]
      | some v =>
        simp only [List.filterMap_cons, hfs, Option.map_some']
        simp only [alGet, if_neg hts]
        rw [ih hndr]
        by_cases htr : t ∈ rest
        · rw [if_pos htr, if_pos (List.mem_cons_of_mem _ htr)]
        · rw [if_neg htr, if_neg (hcons htr)]

theorem mem_upper_iff (M : CooccurrenceMatrix) (e : (ℕ × ℕ) × ℝ) :
    e ∈ (CooccurrenceMatrix.to_json M).weights
      ↔ e.1.1 < e.1.2 ∧ e.1.1 < M.tags.length ∧ e.1.2 < M.tags.length
        ∧ M.weights e.1 = some e.2 := by
  obtain ⟨⟨i, j⟩, w⟩ := e
  simp only [CooccurrenceMatrix.to_json, List.mem_flatMap, List.mem_filterMap, List.mem_range]
  constructor
  · rintro ⟨i1, hi1, j1, hj1, heq⟩
    by_cases hij : i1 < j1
    · rw [if_pos hij] at heq
      cases hw : M.weights (i1, j1) with
      | none =>
        rw [hw] at heq
        simp at heq
      | some w1 =>
        rw [hw] at heq
        simp only [Option.map_some', Option.some.injEq, Prod.mk.injEq] at heq
        obtain ⟨⟨h1, h2⟩, h3⟩ := heq
        subst h1
        subst h2
        subst h3
        exact ⟨hij, hi1, hj1, hw⟩
    · rw [if_neg hij] at heq
      simp at heq
  · rintro ⟨hij, hi, hj, hw⟩
    refine ⟨i, hi, j, hj, ?_⟩
    rw [if_pos hij]
    rw [hw]
    rfl

theorem from_json_weights_offdiag (M : CooccurrenceMatrix)
    (hsym : ∀ i j, M.weights (i, j) = M.weights (j, i))
    (hrange : ∀ i j w, M.weights (i, j) = some w → i < M.tags.length ∧ j < M.tags.length)
    (i j : ℕ) (hij : i ≠ j) :
    (CooccurrenceMatrix.from_json (CooccurrenceMatrix.to_json M)).weights (i, j)
      = M.weights (i, j) := by
  simp only [CooccurrenceMatrix.from_json]
  cases hw : M.weights (i, j) with
  | some w =>
    rcases lt_or_gt_of_ne hij with hlt | hgt
    · have hmem : ((⟨(i, j), w⟩ : (ℕ × ℕ) × ℝ)) ∈ (CooccurrenceMatrix.to_json M).weights := by
        rw [mem_upper_iff]
        exact ⟨hlt, (hrange i j w hw).1, (hrange i j w hw).2, hw⟩
      cases hfind : (CooccurrenceMatrix.to_json M).weights.find?
          (fun e => e.1 == ((i, j) : ℕ × ℕ) || e.1 == (((i, j) : ℕ × ℕ).2, ((i, j) : ℕ × ℕ).1)) with
      | none =>
        exfalso
        have := List.find?_eq_none.mp hfind _ hmem
        simp at this
      | some e =>
        have hpe := List.find?_some hfind
        have hme := List.mem_of_find?_eq_some hfind
        rw [mem_upper_iff] at hme
        have he1 : e.1 = (i, j) := by
          simp only [Bool.or_eq_true, beq_iff_eq] at hpe
          rcases hpe with h | h
          · exact h
          · exfalso
            rw [h] at hme
            have h1 := hme.1
            simp at h1
            omega
        have he2 : M.weights e.1 = some e.2 := hme.2.2.2
        rw [he1, hw] at he2
        simp [← Option.some.inj he2]
    · have hw2 : M.weights (j, i) = some w := by rw [← hsym i j, hw]
      have hmem : ((⟨(j, i), w⟩ : (ℕ × ℕ) × ℝ)) ∈ (CooccurrenceMatrix.to_json M).weights := by
        rw [mem_upper_iff]
        exact ⟨hgt, (hrange j i w hw2).1, (hrange j i w hw2).2, hw2⟩
      cases hfind : (CooccurrenceMatrix.to_json M).weights.find?
          (fun e => e.1 == ((i, j) : ℕ × ℕ) || e.1 == (((i, j) : ℕ × ℕ).2, ((i, j) : ℕ × ℕ).1)) with
      | none =>
        exfalso
        have := List.find?_eq_none.mp hfind _ hmem
        simp at this
      | some e =>
        have hpe := List.find?_some hfind
        have hme := List.mem_of_find?_eq_some hfind
        rw [mem_upper_iff] at hme
        have he1 : e.1 = (j, i) := by
          simp only [Bool.or_eq_true, beq_iff_eq] at hpe
          rcases hpe with h | h
          · exfalso
            rw [h] at hme
            have h1 := hme.1
            simp at h1
            omega
          · simpa using h
        have he2 : M.weights e.1 = some e.2 := hme.2.2.2
        rw [he1, hw2] at he2
        simp [← Option.some.inj he2]
  | none =>
    have hnone : (CooccurrenceMatrix.to_json M).weights.find?
        (fun e => e.1 == ((i, j) : ℕ × ℕ) || e.1 == (((i, j) : ℕ × ℕ).2, ((i, j) : ℕ × ℕ).1))
        = none := by
      rw [List.find?_eq_none]
      intro e he
      rw [mem_upper_iff] at he
      simp only [Bool.or_eq_true, beq_iff_eq]
      rintro (h | h)
      · rw [h] at he
        rw [he.2.2.2] at hw
        simp at hw
      · have hsw : M.weights e.1 = some e.2 := he.2.2.2
        rw [h] at hsw
        have hsw2 : M.weights (j, i) = some e.2 := hsw
        rw [← hsym i j] at hsw2
        rw [hsw2] at hw
        simp at hw
    rw [hnone]
    rfl

theorem build_weights_symm (docs : List DocumentInput) (i j : ℕ) :
    (CooccurrenceMatrix.build_from_documents docs).weights (i, j)
      = (CooccurrenceMatrix.build_from_documents docs).weights (j, i) := by
  unfold CooccurrenceMatrix.build_from_documents
  split_ifs
  · rfl
  · exact builtWeights_symm docs i j

theorem build_weights_range (docs : List DocumentInput) (i j : ℕ) (w : ℝ)
    (h : (CooccurrenceMatrix.build_from_documents docs).weights (i, j) = some w) :
    i < (CooccurrenceMatrix.build_from_documents docs).tags.length
      ∧ j < (CooccurrenceMatrix.build_from_documents docs).tags.length := by
  unfold CooccurrenceMatrix.build_from_documents at h ⊢
  split_ifs at h ⊢ with h0
  · exact absurd h (by simp [CooccurrenceMatrix.new])
  · exact builtWeights_range docs i j w h

theorem from_json_tag_freq (M : CooccurrenceMatrix) (hnd : M.tags.Nodup) (t : String)
    (hcov : t ∉ M.tags → M.tag_freq t = none) :
    (CooccurrenceMatrix.from_json (CooccurrenceMatrix.to_json M)).tag_freq t
      = M.tag_freq t := by
  simp only [CooccurrenceMatrix.from_json, CooccurrenceMatrix.to_json]
  rw [alGet_filterMap_freq M.tags M.tag_freq hnd t]
  by_cases ht : t ∈ M.tags
  · rw [if_pos ht]
  · rw [if_neg ht, hcov ht]

theorem build_tags_nodup (docs : List DocumentInput) :
    (CooccurrenceMatrix.build_from_documents docs).tags.Nodup := by
  unfold CooccurrenceMatrix.build_from_documents
  split_ifs
  · exact List.nodup_nil
  · exact sortedTags_nodup docs

theorem build_tag_freq_cov (docs : List DocumentInput) (t : String)
    (ht : t ∉ (CooccurrenceMatrix.build_from_documents docs).tags) :
    (CooccurrenceMatrix.build_from_documents docs).tag_freq t = none := by
  unfold CooccurrenceMatrix.build_from_documents at ht ⊢
  split_ifs at ht ⊢
  · rfl
  · have hd : t ∉ docTags docs := fun hc =>
      ht ((List.perm_insertionSort _ _).mem_iff.mpr hc)
    exact if_neg hd

/-- C9 counterexample: duplicate-tag documents make `build_from_documents`
store a diagonal self-pair weight, but `to_json` serializes only the strict
upper triangle `i < j`, so the round-trip loses that stored weight. -/
theorem npmi_roundtrip_drops_self_pair_weight :
    (CooccurrenceMatrix.build_from_documents e9docs).weights (0, 0) = some 1
    ∧ (CooccurrenceMatrix.from_json (CooccurrenceMatrix.to_json
        (CooccurrenceMatrix.build_from_documents e9docs))).weights (0, 0) = none := by
  have hne : e9docs.length ≠ 0 := by decide
  have htags : sortedTags e9docs = [tagA, tagB] := by decide
  constructor
  · rw [build_from_documents_eq e9docs hne]
    show builtWeights e9docs (0, 0) = some 1
    have hcount : countPair e9docs [tagA, tagB] (0, 0) = 1 := by decide
    have hc0 : countPair e9docs [tagA, tagB] (0 : ℕ × ℕ) = 1 := hcount
    have hfa : docFreq e9docs tagA = 1 := by decide
    simp only [builtWeights, htags]
    rw [show ((e9docs.length : ℝ)) = 2 by norm_num [show e9docs.length = 2 from rfl]]
    norm_num [hcount, hc0, hfa, List.get?]
    have hinv : -Real.log ((1:ℝ)/2) = Real.log 2 := by
      rw [one_div, Real.log_inv, neg_neg]
    rw [hinv, div_self (ne_of_gt (Real.log_pos (by norm_num)))]
    norm_num
  · rw [build_from_documents_eq e9docs hne]
    have h01 : builtWeights e9docs (0, 1) = none := by
      simp only [builtWeights]
      rw [if_pos (by decide)]
    simp only [CooccurrenceMatrix.from_json, CooccurrenceMatrix.to_json, htags]
    simp [List.range_succ, h01]

/-- C9: the TagMemo round-trip reproduces alpha, beta, the cooccurrence
table, the frequencies and total_count field-by-field (only the PMI
threshold is reset), and the NPMI round-trip of a matrix built from
documents reproduces its tags, per-tag document frequencies, total_docs,
and every stored weight at distinct indices; the original claim fails only
on diagonal self-pair weights, which `to_json` (strict upper triangle)
silently drops. -/
theorem serialization_roundtrip_amended (Mt : TagCooccurrenceMatrix)
    (docs : List DocumentInput) (i j : ℕ) (hij : i ≠ j) (t : String) :
    (TagCooccurrenceMatrix.from_json (TagCooccurrenceMatrix.to_json Mt)).alpha = Mt.alpha
    ∧ (TagCooccurrenceMatrix.from_json (TagCooccurrenceMatrix.to_json Mt)).beta = Mt.beta
    ∧ (TagCooccurrenceMatrix.from_json (TagCooccurrenceMatrix.to_json Mt)).cooccurrence
        = Mt.cooccurrence
    ∧ (TagCooccurrenceMatrix.from_json (TagCooccurrenceMatrix.to_json Mt)).frequencies
        = Mt.frequencies
    ∧ (TagCooccurrenceMatrix.from_json (TagCooccurrenceMatrix.to_json Mt)).total_count
        = Mt.total_count
    ∧ (CooccurrenceMatrix.from_json (CooccurrenceMatrix.to_json
        (CooccurrenceMatrix.build_from_documents docs))).tags
        = (CooccurrenceMatrix.build_from_documents docs).tags
    ∧ (CooccurrenceMatrix.from_json (CooccurrenceMatrix.to_json
        (CooccurrenceMatrix.build_from_documents docs))).tag_freq t
        = (CooccurrenceMatrix.build_from_documents docs).tag_freq t
    ∧ (CooccurrenceMatrix.from_json (CooccurrenceMatrix.to_json
        (CooccurrenceMatrix.build_from_documents docs))).total_docs
        = (CooccurrenceMatrix.build_from_documents docs).total_docs
    ∧ (CooccurrenceMatrix.from_json (CooccurrenceMatrix.to_json
        (CooccurrenceMatrix.build_from_documents docs))).weights (i, j)
        = (CooccurrenceMatrix.build_from_documents docs).weights (i, j) := by
  refine ⟨rfl, rfl, rfl, rfl, rfl, rfl, ?_, rfl, ?_⟩
  · exact from_json_tag_freq (CooccurrenceMatrix.build_from_documents docs)
      (build_tags_nodup docs) t (build_tag_freq_cov docs t)
  · exact from_json_weights_offdiag (CooccurrenceMatrix.build_from_documents docs)
      (build_weights_symm docs)
      (fun a b w h => build_weights_range docs a b w h) i j hij

theorem serialization_roundtrip_amended_witness :
    (0 : ℕ) ≠ 1
    ∧ ((TagCooccurrenceMatrix.from_json (TagCooccurrenceMatrix.to_json
          (TagCooccurrenceMatrix.new none none))).alpha
          = (TagCooccurrenceMatrix.new none none).alpha
      ∧ (TagCooccurrenceMatrix.from_json (TagCooccurrenceMatrix.to_json
          (TagCooccurrenceMatrix.new none none))).beta
          = (TagCooccurrenceMatrix.new none none).beta
      ∧ (TagCooccurrenceMatrix.from_json (TagCooccurrenceMatrix.to_json
          (TagCooccurrenceMatrix.new none none))).cooccurrence
          = (TagCooccurrenceMatrix.new none none).cooccurrence
      ∧ (TagCooccurrenceMatrix.from_json (TagCooccurrenceMatrix.to_json
          (TagCooccurrenceMatrix.new none none))).frequencies
          = (TagCooccurrenceMatrix.new none none).frequencies
      ∧ (TagCooccurrenceMatrix.from_json (TagCooccurrenceMatrix.to_json
          (TagCooccurrenceMatrix.new none none))).total_count
          = (TagCooccurrenceMatrix.new none none).total_count
      ∧ (CooccurrenceMatrix.from_json (CooccurrenceMatrix.to_json
          (CooccurrenceMatrix.build_from_documents e9docs))).tags
          = (CooccurrenceMatrix.build_from_documents e9docs).tags
      ∧ (CooccurrenceMatrix.from_json (CooccurrenceMatrix.to_json
          (CooccurrenceMatrix.build_from_documents e9docs))).tag_freq tagA
          = (CooccurrenceMatrix.build_from_documents e9docs).tag_freq tagA
      ∧ (CooccurrenceMatrix.from_json (CooccurrenceMatrix.to_json
          (CooccurrenceMatrix.build_from_documents e9docs))).total_docs
          = (CooccurrenceMatrix.build_from_documents e9docs).total_docs
      ∧ (CooccurrenceMatrix.from_json (CooccurrenceMatrix.to_json
          (CooccurrenceMatrix.build_from_documents e9docs))).weights (0, 1)
          = (CooccurrenceMatrix.build_from_documents e9docs).weights (0, 1)) :=
  ⟨by decide,
    serialization_roundtrip_amended (TagCooccurrenceMatrix.new none none)
      e9docs 0 1 (by decide) tagA⟩

theorem mem_alPut {V : Type} (k : String) (v : V) (p : String × V) :
    ∀ l : List (String × V), p ∈ alPut l k v → p ∈ l ∨ p = (k, v) := by
  intro l
  induction l with
  | nil =>
    intro h
    simp only [alPut, alModify] at h
    right
    simpa using h
  | cons q rest ih =>
    obtain ⟨k1, v1⟩ := q
    intro h
    simp only [alPut, alModify] at h
    by_cases hk : k1 = k
    · rw [if_pos hk] at h
      rcases List.mem_cons.mp h with h | h
      · right; rw [h, hk]
      · left; exact List.mem_cons_of_mem _ h
    · rw [if_neg hk] at h
      rcases List.mem_cons.mp h with h | h
      · left; rw [h]; exact List.mem_cons_self _ _
      · rcases ih h with h2 | h2
        · left; exact List.mem_cons_of_mem _ h2
        · right; exact h2

theorem alGet_alPut {V : Type} (l : List (String × V)) (k : String) (v : V) (k1 : String) :
    alGet (alPut l k v) k1 = if k = k1 then some v else alGet l k1 := by
  unfold alPut
  rw [alGet_alModify]

theorem get_related_tags_weight_bounds (M : CooccurrenceMatrix) (tag : String)
    (tk : Option ℕ) (mw : Option ℝ)
    (hw : ∀ i j w, M.weights (i, j) = some w → 0 ≤ w ∧ w ≤ 1)
    (rel : TagCooccurrence) (h : rel ∈ M.get_related_tags tag tk mw) :
    0 ≤ rel.weight ∧ rel.weight ≤ 1 := by
  simp only [CooccurrenceMatrix.get_related_tags] at h
  cases hidx : tagIndexGet M.tags tag with
  | none =>
    rw [hidx] at h
    simp at h
  | some idx =>
    rw [hidx] at h
    have h' : rel ∈ List.take (tk.getD 10)
        (List.insertionSort (fun a b => b.weight ≤ a.weight)
          (List.filterMap
            (fun p =>
              if p.1 = idx then none
              else
                if mw.getD 0.1 ≤ (M.weights (idx, p.1)).getD 0 then
                  some (TagCooccurrence.mk tag p.2 ((M.weights (idx, p.1)).getD 0)
                    ⌊(M.weights (idx, p.1)).getD 0 * 100⌋₊)
                else none)
            M.tags.enum)) := h
    have h2 := (List.perm_insertionSort
        (fun a b : TagCooccurrence => b.weight ≤ a.weight) _).mem_iff.mp
      (List.mem_of_mem_take h')
    obtain ⟨p, hp, hsome⟩ := List.mem_filterMap.mp h2
    by_cases hpi : p.1 = idx
    · rw [if_pos hpi] at hsome
      simp at hsome
    · rw [if_neg hpi] at hsome
      by_cases hth : mw.getD 0.1 ≤ (M.weights (idx, p.1)).getD 0
      · rw [if_pos hth] at hsome
        have heq := Option.some.inj hsome
        rw [← heq]
        cases hwv : M.weights (idx, p.1) with
        | none => simp
        | some w => simpa using hw idx p.1 w hwv
      · rw [if_neg hth] at hsome
        simp at hsome

theorem expandRelStep_inv (seeds : List String) (dm cw : ℝ) (acc : ExpandState)
    (rel : TagCooccurrence) (hInv : ExpandInv seeds acc.expanded)
    (h0 : 0 ≤ cw * rel.weight * dm) (h1 : cw * rel.weight * dm < 1) :
    ExpandInv seeds (expandRelStep dm cw acc rel).expanded := by
  simp only [expandRelStep]
  by_cases hfire : (alGet acc.expanded rel.tag2).getD 0 < cw * rel.weight * dm
  · rw [if_pos hfire]
    have hns : rel.tag2 ∉ seeds := by
      intro hmem
      have hget := hInv.2 rel.tag2 hmem
      rw [hget] at hfire
      simp only [Option.getD_some] at hfire
      linarith
    have hput : ExpandInv seeds (alPut acc.expanded rel.tag2 (cw * rel.weight * dm)) := by
      constructor
      · intro p hp
        rcases mem_alPut rel.tag2 (cw * rel.weight * dm) p acc.expanded hp with h | h
        · exact hInv.1 p h
        · rw [h]
          exact ⟨h0, le_of_lt h1, fun hc => absurd hc hns, fun _ => h1⟩
      · intro s hs
        rw [alGet_alPut]
        rw [if_neg (fun hc : rel.tag2 = s => hns (hc ▸ hs))]
        exact hInv.2 s hs
    split_ifs with hvis
    · exact hput
    · exact hput
  · rw [if_neg hfire]
    exact hInv

theorem foldl_relStep_inv (seeds : List String) (dm cw : ℝ) :
    ∀ rels : List TagCooccurrence,
    (∀ rel ∈ rels, 0 ≤ cw * rel.weight * dm ∧ cw * rel.weight * dm < 1) →
    ∀ acc : ExpandState, ExpandInv seeds acc.expanded →
    ExpandInv seeds (rels.foldl (expandRelStep dm cw) acc).expanded := by
  intro rels
  induction rels with
  | nil =>
    intro _ acc h
    simpa using h
  | cons rel rest ih =>
    intro hb acc h
    simp only [List.foldl_cons]
    exact ih (fun r hr => hb r (List.mem_cons_of_mem _ hr)) _
      (expandRelStep_inv seeds dm cw acc rel h
        (hb rel (List.mem_cons_self _ _)).1 (hb rel (List.mem_cons_self _ _)).2)

theorem expandProcessTag_inv (M : CooccurrenceMatrix) (seeds : List String) (dm : ℝ)
    (hw : ∀ i j w, M.weights (i, j) = some w → 0 ≤ w ∧ w ≤ 1)
    (hdm0 : 0 ≤ dm) (hdm1 : dm < 1)
    (acc : ExpandState) (tag : String) (hInv : ExpandInv seeds acc.expanded) :
    ExpandInv seeds (expandProcessTag M dm acc tag).expanded := by
  simp only [expandProcessTag]
  have hcw0 : 0 ≤ (alGet acc.expanded tag).getD 0 := by
    cases hg : alGet acc.expanded tag with
    | none => simp
    | some v =>
      simp only [Option.getD_some]
      exact (hInv.1 (tag, v) (alGet_mem _ _ _ hg)).1
  have hcw1 : (alGet acc.expanded tag).getD 0 ≤ 1 := by
    cases hg : alGet acc.expanded tag with
    | none => simp
    | some v =>
      simp only [Option.getD_some]
      exact (hInv.1 (tag, v) (alGet_mem _ _ _ hg)).2.1
  apply foldl_relStep_inv seeds dm ((alGet acc.expanded tag).getD 0)
    (M.get_related_tags tag (some 5) (some 0.2)) ?_ acc hInv
  intro rel hrel
  have hrw := get_related_tags_weight_bounds M tag (some 5) (some 0.2) hw rel hrel
  constructor
  · exact mul_nonneg (mul_nonneg hcw0 hrw.1) hdm0
  · calc (alGet acc.expanded tag).getD 0 * rel.weight * dm
        ≤ 1 * dm := mul_le_mul_of_nonneg_right (mul_le_one₀ hcw1 hrw.1 hrw.2) hdm0
    _ = dm := one_mul dm
    _ < 1 := hdm1

theorem foldl_processTag_inv (M : CooccurrenceMatrix) (seeds : List String) (dm : ℝ)
    (hw : ∀ i j w, M.weights (i, j) = some w → 0 ≤ w ∧ w ≤ 1)
    (hdm0 : 0 ≤ dm) (hdm1 : dm < 1) :
    ∀ frontier : List String, ∀ acc : ExpandState, ExpandInv seeds acc.expanded →
    ExpandInv seeds (frontier.foldl (expandProcessTag M dm) acc).expanded := by
  intro frontier
  induction frontier with
  | nil =>
    intro acc h
    simpa using h
  | cons t rest ih =>
    intro acc h
    simp only [List.foldl_cons]
    exact ih _ (expandProcessTag_inv M seeds dm hw hdm0 hdm1 acc t h)

theorem expandLoop_inv (M : CooccurrenceMatrix) (seeds : List String) (decay : ℝ)
    (hw : ∀ i j w, M.weights (i, j) = some w → 0 ≤ w ∧ w ≤ 1)
    (hd0 : 0 < decay) (hd1 : decay < 1) :
    ∀ (r dIdx : ℕ) (frontier : List String) (E : List (String × ℝ)) (visited : List String),
    ExpandInv seeds E → ExpandInv seeds (expandLoop M decay dIdx r frontier E visited) := by
  intro r
  induction r with
  | zero =>
    intro dIdx frontier E visited h
    simpa [expandLoop] using h
  | succ n ih =>
    intro dIdx frontier E visited h
    simp only [expandLoop]
    apply ih
    have hdm0 : (0:ℝ) ≤ decay ^ (dIdx + 1) := le_of_lt (pow_pos hd0 _)
    have hdm1 : decay ^ (dIdx + 1) < 1 := pow_lt_one₀ (le_of_lt hd0) hd1 (Nat.succ_ne_zero _)
    exact foldl_processTag_inv M seeds (decay ^ (dIdx + 1)) hw hdm0 hdm1 frontier
      ⟨E, visited, []⟩ h

theorem foldPut_pointwise (seeds : List String) :
    ∀ ss : List String, (∀ s ∈ ss, s ∈ seeds) →
    ∀ m : List (String × ℝ), (∀ p ∈ m, p.2 = (1:ℝ) ∧ p.1 ∈ seeds) →
    ∀ p ∈ ss.foldl (fun acc s => alPut acc s 1) m, p.2 = (1:ℝ) ∧ p.1 ∈ seeds := by
  intro ss
  induction ss with
  | nil =>
    intro _ m hm p hp
    simp only [List.foldl_nil] at hp
    exact hm p hp
  | cons s rest ih =>
    intro hss m hm p hp
    simp only [List.foldl_cons] at hp
    refine ih (fun x hx => hss x (List.mem_cons_of_mem _ hx)) _ ?_ p hp
    intro q hq
    rcases mem_alPut s (1:ℝ) q m hq with h | h
    · exact hm q h
    · rw [h]
      exact ⟨rfl, hss s (List.mem_cons_self _ _)⟩

theorem foldPut_get_one :
    ∀ (ss : List String) (m : List (String × ℝ)) (s : String),
    alGet m s = some 1 → alGet (ss.foldl (fun acc x => alPut acc x 1) m) s = some 1 := by
  intro ss
  induction ss with
  | nil =>
    intro m s h
    simpa using h
  | cons x rest ih =>
    intro m s h
    simp only [List.foldl_cons]
    apply ih
    rw [alGet_alPut]
    split_ifs with hx
    · rfl
    · exact h

theorem foldPut_get_mem :
    ∀ (ss : List String) (m : List (String × ℝ)) (s : String),
    s ∈ ss → alGet (ss.foldl (fun acc x => alPut acc x 1) m) s = some 1 := by
  intro ss
  induction ss with
  | nil =>
    intro m s hs
    simp at hs
  | cons x rest ih =>
    intro m s hs
    simp only [List.foldl_cons]
    by_cases hr : s ∈ rest
    · exact ih _ s hr
    · have hx : x = s := by
        rcases List.mem_cons.mp hs with h | h
        · exact h.symm
        · exact absurd h hr
      apply foldPut_get_one
      rw [alGet_alPut, if_pos hx]

/-- C10: on a matrix whose stored weights all lie in `[0,1]`, with any seed
list, any depth and any decay factor resolving strictly between 0 and 1,
`expand_tags` returns every seed with weight exactly 1, returns every entry
keyed by a seed with weight 1 and every non-seed entry with weight strictly
below 1, and in the weight-descending output no non-seed entry ever precedes
a seed entry. -/
theorem expand_tags_seeds_first (M : CooccurrenceMatrix) (seeds : List String)
    (depth : Option ℕ) (decay_factor : Option ℝ)
    (hw : ∀ i j w, M.weights (i, j) = some w → 0 ≤ w ∧ w ≤ 1)
    (hd0 : 0 < decay_factor.getD 0.7) (hd1 : decay_factor.getD 0.7 < 1) :
    (∀ s ∈ seeds, ∃ e ∈ M.expand_tags seeds depth decay_factor,
        e.tag2 = s ∧ e.weight = 1)
    ∧ (∀ e ∈ M.expand_tags seeds depth decay_factor, e.tag2 ∈ seeds → e.weight = 1)
    ∧ (∀ e ∈ M.expand_tags seeds depth decay_factor, e.tag2 ∉ seeds → e.weight < 1)
    ∧ ∀ (i j : Fin (M.expand_tags seeds depth decay_factor).length), i < j →
        ((M.expand_tags seeds depth decay_factor).get i).tag2 ∉ seeds →
        ((M.expand_tags seeds depth decay_factor).get j).tag2 ∉ seeds := by
  haveI instTot : IsTotal TagCooccurrence (fun a b => b.weight ≤ a.weight) :=
    ⟨fun a b => le_total b.weight a.weight⟩
  haveI instTr : IsTrans TagCooccurrence (fun a b => b.weight ≤ a.weight) :=
    ⟨fun a b c hab hbc => le_trans hbc hab⟩
  have hInv : ExpandInv seeds (expandLoop M (decay_factor.getD 0.7) 0 (depth.getD 2) seeds
      (seeds.foldl (fun m s => alPut m s 1) [])
      (seeds.foldl (fun vs s => if s ∈ vs then vs else vs ++ [s]) [])) := by
    apply expandLoop_inv M seeds (decay_factor.getD 0.7) hw hd0 hd1
    constructor
    · intro p hp
      have hps := foldPut_pointwise seeds seeds (fun s hs => hs) []
        (fun q hq => absurd hq (List.not_mem_nil q)) p hp
      refine ⟨by rw [hps.1]; norm_num, by rw [hps.1], fun _ => hps.1,
        fun hns => absurd hps.2 hns⟩
    · intro s hs
      exact foldPut_get_mem seeds [] s hs
  have hout : M.expand_tags seeds depth decay_factor
      = List.insertionSort (fun a b => b.weight ≤ a.weight)
          ((expandLoop M (decay_factor.getD 0.7) 0 (depth.getD 2) seeds
            (seeds.foldl (fun m s => alPut m s 1) [])
            (seeds.foldl (fun vs s => if s ∈ vs then vs else vs ++ [s]) [])).map
            fun p => TagCooccurrence.mk "" p.1 p.2 ⌊p.2 * 100⌋₊) := by
    simp only [CooccurrenceMatrix.expand_tags]
  have hmem : ∀ e : TagCooccurrence, e ∈ M.expand_tags seeds depth decay_factor →
      ∃ p ∈ expandLoop M (decay_factor.getD 0.7) 0 (depth.getD 2) seeds
          (seeds.foldl (fun m s => alPut m s 1) [])
          (seeds.foldl (fun vs s => if s ∈ vs then vs else vs ++ [s]) []),
        e = TagCooccurrence.mk "" p.1 p.2 ⌊p.2 * 100⌋₊ := by
    intro e he
    rw [hout] at he
    have hm := (List.perm_insertionSort
      (fun a b : TagCooccurrence => b.weight ≤ a.weight) _).mem_iff.mp he
    obtain ⟨p, hp, hpe⟩ := List.mem_map.mp hm
    exact ⟨p, hp, hpe.symm⟩
  have h2 : ∀ e ∈ M.expand_tags seeds depth decay_factor, e.tag2 ∈ seeds →
      e.weight = 1 := by
    intro e he hts
    obtain ⟨p, hp, rfl⟩ := hmem e he
    exact (hInv.1 p hp).2.2.1 hts
  have h3 : ∀ e ∈ M.expand_tags seeds depth decay_factor, e.tag2 ∉ seeds →
      e.weight < 1 := by
    intro e he hts
    obtain ⟨p, hp, rfl⟩ := hmem e he
    exact (hInv.1 p hp).2.2.2 hts
  have h1 : ∀ s ∈ seeds, ∃ e ∈ M.expand_tags seeds depth decay_factor,
      e.tag2 = s ∧ e.weight = 1 := by
    intro s hs
    have hget := hInv.2 s hs
    have hmemF := alGet_mem _ _ _ hget
    refine ⟨TagCooccurrence.mk "" s 1 ⌊(1:ℝ) * 100⌋₊, ?_, rfl, rfl⟩
    rw [hout]
    exact (List.perm_insertionSort
      (fun a b : TagCooccurrence => b.weight ≤ a.weight) _).mem_iff.mpr
      (List.mem_map_of_mem _ hmemF)
  have hsorted : List.Sorted (fun a b : TagCooccurrence => b.weight ≤ a.weight)
      (M.expand_tags seeds depth decay_factor) := by
    rw [hout]
    exact List.sorted_insertionSort _ _
  refine ⟨h1, h2, h3, ?_⟩
  intro i j hij hni hj
  have hw1 := h2 _ (List.get_mem _ j.1 j.2) hj
  have hw2 := h3 _ (List.get_mem _ i.1 i.2) hni
  have hr := List.pairwise_iff_get.mp hsorted i j hij
  simp only at hr
  linarith

theorem expand_tags_seeds_first_witness :
    (∀ i j w, CooccurrenceMatrix.new.weights (i, j) = some w → 0 ≤ w ∧ w ≤ 1)
    ∧ (0:ℝ) < ((some ((7:ℝ)/10) : Option ℝ)).getD 0.7
    ∧ ((some ((7:ℝ)/10) : Option ℝ)).getD 0.7 < 1
    ∧ ((∀ s ∈ [tagA], ∃ e ∈ CooccurrenceMatrix.new.expand_tags [tagA] (some 2)
          (some ((7:ℝ)/10)), e.tag2 = s ∧ e.weight = 1)
      ∧ (∀ e ∈ CooccurrenceMatrix.new.expand_tags [tagA] (some 2) (some ((7:ℝ)/10)),
          e.tag2 ∈ [tagA] → e.weight = 1)
      ∧ (∀ e ∈ CooccurrenceMatrix.new.expand_tags [tagA] (some 2) (some ((7:ℝ)/10)),
          e.tag2 ∉ [tagA] → e.weight < 1)
      ∧ ∀ (i j : Fin (CooccurrenceMatrix.new.expand_tags [tagA] (some 2)
            (some ((7:ℝ)/10))).length), i < j →
          ((CooccurrenceMatrix.new.expand_tags [tagA] (some 2)
            (some ((7:ℝ)/10))).get i).tag2 ∉ [tagA] →
          ((CooccurrenceMatrix.new.expand_tags [tagA] (some 2)
            (some ((7:ℝ)/10))).get j).tag2 ∉ [tagA]) :=
  ⟨fun i j w h => absurd h (by simp [CooccurrenceMatrix.new]),
   by simp only [Option.getD_some]; norm_num,
   by simp only [Option.getD_some]; norm_num,
   expand_tags_seeds_first CooccurrenceMatrix.new [tagA] (some 2) (some ((7:ℝ)/10))
     (fun i j w h => absurd h (by simp [CooccurrenceMatrix.new]))
     (by simp only [Option.getD_some]; norm_num)
     (by simp only [Option.getD_some]; norm_num)⟩

theorem c7lens_eval :
    (WaveRAGEngine.new (some c7cfg)).execute_lens_phase [tagA]
      = ⟨[tagA], [tagA]⟩ := rfl

theorem c7expansion_eval :
    (WaveRAGEngine.new (some c7cfg)).execute_expansion_phase [tagA]
      = ⟨[tagA], 2⟩ := by
  have hexp : (WaveRAGEngine.new (some c7cfg)).cooccurrence.expand_tags [tagA]
      (some ((WaveRAGEngine.new (some c7cfg)).config.expansion_depth.getD 2))
      (some 0.7) = [⟨"", tagA, (1:ℝ), ⌊(1:ℝ) * 100⌋₊⟩] := rfl
  simp only [WaveRAGEngine.execute_expansion_phase, hexp, List.filter_cons,
    List.filter_nil]
  norm_num [WaveRAGEngine.new, c7cfg, WaveRAGConfig.default]

theorem c7fuse_eval :
    (WaveRAGEngine.new (some c7cfg)).hybrid_search.fuse_results c7bm25 c7vector
      (some []) (some ((WaveRAGEngine.new (some c7cfg)).config.focus_top_k.getD 10))
      = [⟨"y", "", none,
            (1 / (60 + ((1:ℕ):ℝ) + 1) * 0.5 + 1 / (60 + ((0:ℕ):ℝ) + 1) * 0.5)
              * (1 + 0 * 0.65),
            0.5, some 1, 1, some 0, 0, "both"⟩,
         ⟨"x", "", none,
            (1 / (60 + ((0:ℕ):ℝ) + 1) * 0.5 + 0) * (1 + 0 * 0.65),
            1, some 0, 0, none, 0, "bm25"⟩] := by
  show (List.insertionSort (fun a b : HybridSearchResult => b.final_score ≤ a.final_score)
      ([⟨"x", "", none, (1 / (60 + ((0:ℕ):ℝ) + 1) * 0.5 + 0) * (1 + 0 * 0.65),
          1, some 0, 0, none, 0, "bm25"⟩,
        ⟨"y", "", none,
          (1 / (60 + ((1:ℕ):ℝ) + 1) * 0.5 + 1 / (60 + ((0:ℕ):ℝ) + 1) * 0.5)
            * (1 + 0 * 0.65),
          0.5, some 1, 1, some 0, 0, "both"⟩] : List HybridSearchResult)).take 10
    = [⟨"y", "", none,
          (1 / (60 + ((1:ℕ):ℝ) + 1) * 0.5 + 1 / (60 + ((0:ℕ):ℝ) + 1) * 0.5)
            * (1 + 0 * 0.65),
          0.5, some 1, 1, some 0, 0, "both"⟩,
       ⟨"x", "", none, (1 / (60 + ((0:ℕ):ℝ) + 1) * 0.5 + 0) * (1 + 0 * 0.65),
          1, some 0, 0, none, 0, "bm25"⟩]
  simp only [List.insertionSort, List.orderedInsert]
  norm_num

theorem c7scenario_eval :
    (WaveRAGEngine.new (some c7cfg)).search [tagA] c7bm25 c7vector none
      = [⟨"y", "", (0.5:ℝ)/62 + 0.5/61, 1, 0, [], none, "both"⟩,
         ⟨"x", "", (0.5:ℝ)/61, 1, 0, [], none, "bm25"⟩] := by
  have hboost : ((c7bm25 ++ c7vector).foldl
      (focusBoostStep (WaveRAGEngine.new (some c7cfg)).tag_matrix [tagA]) [])
      = ([] : List (String × ℝ)) := rfl
  simp only [WaveRAGEngine.search]
  rw [c7lens_eval]
  dsimp only
  rw [c7expansion_eval]
  dsimp only
  simp only [WaveRAGEngine.execute_focus_phase]
  rw [hboost, c7fuse_eval]
  norm_num [List.filter_cons, c7cfg, WaveRAGConfig.default, WaveRAGEngine.new,
    alGet, max_def]

/-- C7 counterexample: in spec scenario 3 the code's top result "y" has
final score `0.5/62 + 0.5/61` — its BM25 rank is 1, giving RRF denominator
62 — not the claimed `0.5/(60+1) + 0.5/(60+1)`. -/
theorem waverag_scenario_score_mismatch :
    (((WaveRAGEngine.new (some c7cfg)).search [tagA] c7bm25 c7vector none).map
        fun r => r.final_score).head? = some ((0.5:ℝ)/62 + 0.5/61)
    ∧ (0.5:ℝ)/62 + 0.5/61 ≠ 0.5/(60+1) + 0.5/(60+1) := by
  constructor
  · rw [c7scenario_eval]
    rfl
  · norm_num

/-- C7: with an empty TagMemo and empty NPMI matrix, query tags `["a"]`,
BM25 results `[x: 1.0, y: 0.5]`, vector results `[y: 1.0]`, default weights
0.5/0.5, `rrf_k = 60` and focus threshold 0, the WaveRAG search returns `y`
first with source "both" and final score `0.5/(60+2) + 0.5/(60+1)` (BM25
rank 1, vector rank 0), then `x` with source "bm25" and final score
`0.5/(60+1)`; the claim's ordering and sources are right but its score for
`y` uses RRF denominator 61 for both lists where the code produces 62 for
the BM25 contribution. -/
theorem waverag_scenario_ranking :
    ((WaveRAGEngine.new (some c7cfg)).search [tagA] c7bm25 c7vector none).map
        (fun r => (r.id, r.final_score, r.source))
      = [("y", (0.5:ℝ)/(60+2) + 0.5/(60+1), "both"),
         ("x", (0.5:ℝ)/(60+1), "bm25")] := by
  rw [c7scenario_eval]
  norm_num
